import Mathlib

/-!
Verification of the DataLex model resolution, canonicalization and semantic-diff
subsystem (packages/core_engine/src/dm_core/canonical.py, resolver.py, and the
CLI surface in packages/cli/src/dm_cli/main.py).

Documents are embedded as untyped YAML/JSON-like values (the Python code works
on Dict[str, Any]).  Python dicts are insertion-ordered association lists with
first-occurrence lookup and replace-in-place assignment.  Python sorted() is a
stable sort; the output of a stable sort is uniquely determined by the ordering
of the keys and the input order of key-tied items, so the structurally
recursive stable insertion sort below is extensionally the same function.
Python string comparison is code-point lexicographic, embedded below on
character lists.  The filesystem touched by the resolver is embedded as an
explicit finite map from absolute paths to load results.
-/

namespace DataLex

/-- Code-point comparison of characters, as used by Python string ordering. -/
def chLe (c d : Char) : Bool := decide (c ≤ d)

/-- Lexicographic order on character lists: Python string comparison. -/
def chListLe : List Char → List Char → Bool
  | [], _ => true
  | _ :: _, [] => false
  | c :: cs, d :: ds => if c = d then chListLe cs ds else chLe c d

/-- Python string comparison (lexicographic on code points). -/
def strLe (a b : String) : Bool := chListLe a.data b.data

/-- Lexicographic order on string tuples, as Python compares key tuples. -/
def keyLe : List String → List String → Bool
  | [], _ => true
  | _ :: _, [] => false
  | a :: as, b :: bs => if a = b then keyLe as bs else strLe a b

theorem chListLe_total : ∀ as bs : List Char, chListLe as bs = true ∨ chListLe bs as = true
  | [], _ => Or.inl rfl
  | _ :: _, [] => Or.inr rfl
  | c :: cs, d :: ds => by
    by_cases h : c = d
    · subst h
      simpa [chListLe] using chListLe_total cs ds
    · have h' : ¬ d = c := fun hh => h hh.symm
      rcases le_total c d with hle | hle
      · exact Or.inl (by simp [chListLe, h, chLe, hle])
      · exact Or.inr (by simp [chListLe, h', chLe, hle])

theorem chListLe_antisymm : ∀ as bs : List Char,
    chListLe as bs = true → chListLe bs as = true → as = bs
  | [], [], _, _ => rfl
  | [], _ :: _, _, h => by simp [chListLe] at h
  | _ :: _, [], h, _ => by simp [chListLe] at h
  | c :: cs, d :: ds, h₁, h₂ => by
    by_cases h : c = d
    · subst h
      simp only [chListLe, if_pos rfl] at h₁ h₂
      exact congrArg (c :: ·) (chListLe_antisymm cs ds h₁ h₂)
    · have h' : ¬ d = c := fun hh => h hh.symm
      simp only [chListLe, if_neg h, chLe, decide_eq_true_eq] at h₁
      simp only [chListLe, if_neg h', chLe, decide_eq_true_eq] at h₂
      exact absurd (le_antisymm h₁ h₂) h

theorem chListLe_trans : ∀ as bs cs : List Char,
    chListLe as bs = true → chListLe bs cs = true → chListLe as cs = true
  | [], _, _, _, _ => rfl
  | _ :: _, [], _, h, _ => by simp [chListLe] at h
  | _ :: _, _ :: _, [], _, h => by simp [chListLe] at h
  | a :: as, b :: bs, c :: cs, h₁, h₂ => by
    by_cases hab : a = b
    · subst hab
      by_cases hac : a = c
      · subst hac
        simp only [chListLe, if_pos rfl] at h₁ h₂ ⊢
        exact chListLe_trans as bs cs h₁ h₂
      · simpa [chListLe, hac] using h₂
    · by_cases hbc : b = c
      · subst hbc
        simpa [chListLe, hab] using h₁
      · simp only [chListLe, if_neg hab, chLe, decide_eq_true_eq] at h₁
        simp only [chListLe, if_neg hbc, chLe, decide_eq_true_eq] at h₂
        have hlt₁ : a < b := lt_of_le_of_ne h₁ hab
        have hlt₂ : b < c := lt_of_le_of_ne h₂ hbc
        have hac : a ≠ c := ne_of_lt (hlt₁.trans hlt₂)
        simp [chListLe, hac, chLe, le_of_lt (hlt₁.trans hlt₂)]

theorem strLe_total (a b : String) : strLe a b = true ∨ strLe b a = true :=
  chListLe_total a.data b.data

theorem strLe_antisymm {a b : String} (h₁ : strLe a b = true) (h₂ : strLe b a = true) :
    a = b := by
  have h := chListLe_antisymm a.data b.data h₁ h₂
  cases a; cases b
  exact congrArg String.mk (by simpa using h)

theorem strLe_trans {a b c : String} (h₁ : strLe a b = true) (h₂ : strLe b c = true) :
    strLe a c = true :=
  chListLe_trans a.data b.data c.data h₁ h₂

theorem keyLe_total : ∀ as bs : List String, keyLe as bs = true ∨ keyLe bs as = true
  | [], _ => Or.inl rfl
  | _ :: _, [] => Or.inr rfl
  | a :: as, b :: bs => by
    by_cases h : a = b
    · subst h
      simpa [keyLe] using keyLe_total as bs
    · have h' : ¬ b = a := fun hh => h hh.symm
      rcases strLe_total a b with hle | hle
      · exact Or.inl (by simp [keyLe, h, hle])
      · exact Or.inr (by simp [keyLe, h', hle])

theorem keyLe_antisymm : ∀ as bs : List String,
    keyLe as bs = true → keyLe bs as = true → as = bs
  | [], [], _, _ => rfl
  | [], _ :: _, _, h => by simp [keyLe] at h
  | _ :: _, [], h, _ => by simp [keyLe] at h
  | a :: as, b :: bs, h₁, h₂ => by
    by_cases h : a = b
    · subst h
      simp only [keyLe, if_pos rfl] at h₁ h₂
      exact congrArg (a :: ·) (keyLe_antisymm as bs h₁ h₂)
    · have h' : ¬ b = a := fun hh => h hh.symm
      simp only [keyLe, if_neg h] at h₁
      simp only [keyLe, if_neg h'] at h₂
      exact absurd (strLe_antisymm h₁ h₂) h

theorem keyLe_trans : ∀ as bs cs : List String,
    keyLe as bs = true → keyLe bs cs = true → keyLe as cs = true
  | [], _, _, _, _ => rfl
  | _ :: _, [], _, h, _ => by simp [keyLe] at h
  | _ :: _, _ :: _, [], _, h => by simp [keyLe] at h
  | a :: as, b :: bs, c :: cs, h₁, h₂ => by
    by_cases hab : a = b
    · subst hab
      by_cases hac : a = c
      · subst hac
        simp only [keyLe, if_pos rfl] at h₁ h₂ ⊢
        exact keyLe_trans as bs cs h₁ h₂
      · simpa [keyLe, hac] using h₂
    · by_cases hbc : b = c
      · subst hbc
        simpa [keyLe, hab] using h₁
      · simp only [keyLe, if_neg hab] at h₁
        simp only [keyLe, if_neg hbc] at h₂
        have hac : a ≠ c := fun he => hab (strLe_antisymm h₁ (he ▸ h₂))
        simp [keyLe, hac, strLe_trans h₁ h₂]

/-- Stable insertion step of the sort used to embed Python sorted(). -/
def insLe (le : α → α → Bool) (x : α) : List α → List α
  | [] => [x]
  | y :: ys => if le x y then x :: y :: ys else y :: insLe le x ys

/-- Stable sort embedding Python sorted(): a stable sort is uniquely determined
by the key order and input order of ties, so this insertion sort agrees with
the CPython timsort on every input. -/
def sortLe (le : α → α → Bool) : List α → List α
  | [] => []
  | x :: xs => insLe le x (sortLe le xs)

theorem insLe_perm (le : α → α → Bool) (x : α) :
    ∀ l : List α, List.Perm (insLe le x l) (x :: l)
  | [] => List.Perm.refl _
  | y :: ys => by
    by_cases h : le x y = true
    · simp [insLe, h]
    · simp only [insLe, if_neg h]
      exact ((insLe_perm le x ys).cons y).trans (List.Perm.swap x y ys)

theorem sortLe_perm (le : α → α → Bool) : ∀ l : List α, List.Perm (sortLe le l) l
  | [] => List.Perm.refl _
  | x :: xs => (insLe_perm le x (sortLe le xs)).trans ((sortLe_perm le xs).cons x)

theorem mem_insLe (le : α → α → Bool) (x a : α) (l : List α) :
    a ∈ insLe le x l ↔ a = x ∨ a ∈ l :=
  ⟨fun h => List.mem_cons.mp ((insLe_perm le x l).mem_iff.mp h),
   fun h => (insLe_perm le x l).mem_iff.mpr (List.mem_cons.mpr h)⟩

theorem insLe_pairwise (le : α → α → Bool)
    (total : ∀ a b : α, le a b = true ∨ le b a = true)
    (trans : ∀ a b c : α, le a b = true → le b c = true → le a c = true) (x : α) :
    ∀ l : List α, l.Pairwise (fun a b => le a b = true) →
      (insLe le x l).Pairwise (fun a b => le a b = true)
  | [], _ => by simp [insLe]
  | y :: ys, hp => by
    rcases List.pairwise_cons.mp hp with ⟨hy, hys⟩
    by_cases h : le x y = true
    · simp only [insLe, if_pos h]
      refine List.pairwise_cons.mpr ⟨?_, hp⟩
      intro b hb
      rcases List.mem_cons.mp hb with rfl | hb
      · exact h
      · exact trans x y b h (hy b hb)
    · simp only [insLe, if_neg h]
      have hyx : le y x = true := (total x y).resolve_left h
      refine List.pairwise_cons.mpr ⟨?_, insLe_pairwise le total trans x ys hys⟩
      intro b hb
      rcases (mem_insLe le x b ys).mp hb with rfl | hb
      · exact hyx
      · exact hy b hb

theorem sortLe_pairwise (le : α → α → Bool)
    (total : ∀ a b : α, le a b = true ∨ le b a = true)
    (trans : ∀ a b c : α, le a b = true → le b c = true → le a c = true) :
    ∀ l : List α, (sortLe le l).Pairwise (fun a b => le a b = true)
  | [] => List.Pairwise.nil
  | x :: xs =>
    insLe_pairwise le total trans x (sortLe le xs) (sortLe_pairwise le total trans xs)

theorem sortLe_of_pairwise (le : α → α → Bool) :
    ∀ {l : List α}, l.Pairwise (fun a b => le a b = true) → sortLe le l = l
  | [], _ => rfl
  | x :: xs, hp => by
    rcases List.pairwise_cons.mp hp with ⟨hx, hxs⟩
    simp only [sortLe, sortLe_of_pairwise le hxs]
    cases xs with
    | nil => rfl
    | cons y ys => simp [insLe, hx y (by simp)]

theorem eq_of_perm_of_pairwise (le : α → α → Bool) :
    ∀ (l₁ l₂ : List α), l₁.Perm l₂ →
      l₁.Pairwise (fun a b => le a b = true) →
      l₂.Pairwise (fun a b => le a b = true) →
      (∀ a ∈ l₁, ∀ b ∈ l₁, le a b = true → le b a = true → a = b) → l₁ = l₂
  | [], l₂, h, _, _, _ => (h.symm.eq_nil).symm
  | x :: xs, [], h, _, _, _ => absurd h.eq_nil (by simp)
  | x :: xs, y :: ys, h, s₁, s₂, anti => by
    rcases List.pairwise_cons.mp s₁ with ⟨hx, hxs⟩
    rcases List.pairwise_cons.mp s₂ with ⟨hy, hys⟩
    have hxy : x = y := by
      have hx2 : x ∈ y :: ys := h.mem_iff.mp (by simp)
      have hy1 : y ∈ x :: xs := h.symm.mem_iff.mp (by simp)
      rcases List.mem_cons.mp hx2 with he | hx2
      · exact he
      rcases List.mem_cons.mp hy1 with he | hy1
      · exact he.symm
      exact anti x (by simp) y (by simp [hy1]) (hx y hy1) (hy x hx2)
    subst hxy
    have htail : xs.Perm ys := h.cons_inv
    have : xs = ys := eq_of_perm_of_pairwise le xs ys htail hxs hys
      (fun a ha b hb => anti a (by simp [ha]) b (by simp [hb]))
    rw [this]

/-- Sorting agrees on permuted inputs whenever key ties can only occur between
equal elements (the stable-sort order-insensitivity condition). -/
theorem sortLe_congr_perm (le : α → α → Bool)
    (total : ∀ a b : α, le a b = true ∨ le b a = true)
    (trans : ∀ a b c : α, le a b = true → le b c = true → le a c = true)
    {l₁ l₂ : List α} (h : l₁.Perm l₂)
    (anti : ∀ a ∈ l₁, ∀ b ∈ l₁, le a b = true → le b a = true → a = b) :
    sortLe le l₁ = sortLe le l₂ := by
  refine eq_of_perm_of_pairwise le _ _ ?_ (sortLe_pairwise le total trans l₁)
    (sortLe_pairwise le total trans l₂) ?_
  · exact (sortLe_perm le l₁).trans (h.trans (sortLe_perm le l₂).symm)
  · intro a ha b hb
    exact anti a ((sortLe_perm le l₁).mem_iff.mp ha) b ((sortLe_perm le l₁).mem_iff.mp hb)



/-- Untyped document value: the generic nested mapping produced by the YAML
loader.  The Python code works on Dict[str, Any]; Python dicts are
insertion-ordered and are embedded as association lists with first-occurrence
lookup and replace-in-place assignment. -/
inductive Val where
  | null
  | bool (b : Bool)
  | int (n : Int)
  | str (s : String)
  | list (xs : List Val)
  | dict (kvs : List (String × Val))

abbrev Entries := List (String × Val)

/-- First-occurrence lookup in a dict entry list (Python dict lookup; real
Python dicts have unique keys, so the first occurrence is the occurrence). -/
def lookupKey : Entries → String → Option Val
  | [], _ => none
  | (k, v) :: rest, key => if k = key then some v else lookupKey rest key

/-- Python dict assignment d[k] = v: replaces the value in place when the key
is present, otherwise appends the new binding at the end. -/
def setKey : Entries → String → Val → Entries
  | [], key, v => [(key, v)]
  | (k, w) :: rest, key, v =>
    if k = key then (k, v) :: rest else (k, w) :: setKey rest key v

namespace Val

def entries : Val → Entries
  | .dict kvs => kvs
  | _ => []

def get? (v : Val) (key : String) : Option Val := lookupKey v.entries key

/-- Python v.get(key, default).  On a non-dict receiver Python raises
AttributeError; the embedding totalizes that case to the default, and theorems
whose truth depends on it carry well-formedness hypotheses. -/
def getD (v : Val) (key : String) (d : Val) : Val := (v.get? key).getD d

/-- Python dict item assignment v[key] = x (identity on non-dicts, where
Python would raise). -/
def dset (v : Val) (key : String) (x : Val) : Val :=
  match v with
  | .dict kvs => .dict (setKey kvs key x)
  | other => other

def asList : Val → List Val
  | .list xs => xs
  | _ => []

def asStr : Val → String
  | .str s => s
  | _ => ""

end Val

/-- Python item.get(key, dflt) for a string-valued field used as a name or
sort key: dflt when the key is absent, and (totalizing the untyped cases where
Python would raise on comparison) the empty string when the stored value is
not a string. -/
def getStrD (v : Val) (key : String) (dflt : String) : String :=
  match v.get? key with
  | some (.str s) => s
  | some _ => ""
  | none => dflt

def nameKey (v : Val) : List String := [getStrD v "name" ""]

def relKey (v : Val) : List String :=
  [getStrD v "name" "", getStrD v "from" "", getStrD v "to" "",
   getStrD v "cardinality" ""]

def ruleKey (v : Val) : List String := [getStrD v "name" "", getStrD v "target" ""]

def idxKey (v : Val) : List String := [getStrD v "name" "", getStrD v "entity" ""]

def termKey (v : Val) : List String := [getStrD v "term" ""]

def keyLeOf (key : Val → List String) (a b : Val) : Bool := keyLe (key a) (key b)

/-- Python sorted(xs, key) for a string-tuple key. -/
def sortByKey (key : Val → List String) (xs : List Val) : List Val :=
  sortLe (keyLeOf key) xs

def strValLe (a b : Val) : Bool := strLe a.asStr b.asStr

/-- Python sorted() over a list of strings. -/
def sortStrVals (xs : List Val) : List Val := sortLe strValLe xs

/-- canonical.py _sort_fields: fields sorted by name. -/
def sort_fields (fields : List Val) : List Val := sortByKey nameKey fields

/-- Per-entity step of canonical.py _sort_entities: deepcopy the entity
(identity on pure values), assign the sorted fields list, then sort the tags
list in place when tags is present and is a list. -/
def procEntity (e : Val) : Val :=
  let e1 := e.dset "fields"
    (.list (sort_fields (Val.asList (e.getD "fields" (.list [])))))
  match e1.get? "tags" with
  | some (.list ts) => e1.dset "tags" (.list (sortStrVals ts))
  | _ => e1

/-- canonical.py _sort_entities: per-entity normalization, then sort by name. -/
def sort_entities (entities : List Val) : List Val :=
  sortByKey nameKey (entities.map procEntity)

/-- canonical.py _sort_relationships: sorted by (name, from, to, cardinality);
the element dicts are not copied. -/
def sort_relationships (rels : List Val) : List Val := sortByKey relKey rels

/-- canonical.py _sort_rules: sorted by (name, target). -/
def sort_rules (rules : List Val) : List Val := sortByKey ruleKey rules

/-- canonical.py _sort_indexes: sorted by (name, entity). -/
def sort_indexes (idxs : List Val) : List Val := sortByKey idxKey idxs

/-- Per-term step of canonical.py _sort_glossary: deepcopy, then sort
related_fields and tags in place when each is present and is a list. -/
def procTerm (t : Val) : Val :=
  let t1 := match t.get? "related_fields" with
    | some (.list rf) => t.dset "related_fields" (.list (sortStrVals rf))
    | _ => t
  match t1.get? "tags" with
  | some (.list ts) => t1.dset "tags" (.list (sortStrVals ts))
  | _ => t1

/-- canonical.py _sort_glossary: per-term normalization, then sort by term. -/
def sort_glossary (glossary : List Val) : List Val :=
  sortByKey termKey (glossary.map procTerm)

/-- Dict comprehension over sorted keys: governance classification or stewards
re-keyed in ascending key order, values untouched. -/
def rekeyAsc (kvs : Entries) : Entries :=
  (sortLe strLe (kvs.map Prod.fst)).map (fun k => (k, (lookupKey kvs k).getD .null))

/-- Governance block handling in compile_model: re-key classification when it
is a dict, then re-key stewards when it is a dict (reads mirror the source
order: stewards is read after the classification assignment). -/
def procGovernance (gov : Val) : Val :=
  let g1 := match gov.get? "classification" with
    | some (.dict kvs) => gov.dset "classification" (.dict (rekeyAsc kvs))
    | _ => gov
  match g1.get? "stewards" with
  | some (.dict kvs) => g1.dset "stewards" (.dict (rekeyAsc kvs))
  | _ => g1

/-- Final lines of compile_model: sort model.owners in place when it is a
list (the assignment hits the deep copy of the model block). -/
def procOwners (modelV : Val) : Val :=
  match modelV.get? "owners" with
  | some (.list ow) => modelV.dset "owners" (.list (sortStrVals ow))
  | _ => modelV

/-- canonical.py compile_model: builds the canonical dict with keys in
construction order (model, entities, relationships, indexes, rules,
governance, glossary, display); the final in-place sort of model.owners is
applied to the deep copy of the model block, which sits at a fixed position,
so it is embedded as building the model entry from the updated block. -/
def compile_model (m : Val) : Val :=
  let modelOut := procOwners (m.getD "model" (.dict []))
  .dict
    [("model", modelOut),
     ("entities", .list (sort_entities (Val.asList (m.getD "entities" (.list []))))),
     ("relationships",
       .list (sort_relationships (Val.asList (m.getD "relationships" (.list []))))),
     ("indexes", .list (sort_indexes (Val.asList (m.getD "indexes" (.list []))))),
     ("rules", .list (sort_rules (Val.asList (m.getD "rules" (.list []))))),
     ("governance", procGovernance (m.getD "governance" (.dict []))),
     ("glossary", .list (sort_glossary (Val.asList (m.getD "glossary" (.list []))))),
     ("display", m.getD "display" (.dict []))]

theorem sortByKey_idem (key : Val → List String) (xs : List Val) :
    sortByKey key (sortByKey key xs) = sortByKey key xs :=
  sortLe_of_pairwise (keyLeOf key)
    (sortLe_pairwise (keyLeOf key) (fun a b => keyLe_total (key a) (key b))
      (fun a b c => keyLe_trans (key a) (key b) (key c)) xs)

theorem sortStrVals_idem (xs : List Val) :
    sortStrVals (sortStrVals xs) = sortStrVals xs :=
  sortLe_of_pairwise strValLe
    (sortLe_pairwise strValLe (fun a b => strLe_total a.asStr b.asStr)
      (fun _ _ _ h₁ h₂ => strLe_trans h₁ h₂) xs)

theorem lookupKey_setKey_self : ∀ (kvs : Entries) (k : String) (v : Val),
    lookupKey (setKey kvs k v) k = some v
  | [], k, v => by simp [setKey, lookupKey]
  | (k₀, w) :: rest, k, v => by
    by_cases h : k₀ = k
    · simp [setKey, h, lookupKey]
    · simp [setKey, h, lookupKey, lookupKey_setKey_self rest k v]

theorem lookupKey_setKey_ne : ∀ (kvs : Entries) {k k₁ : String} (v : Val), k ≠ k₁ →
    lookupKey (setKey kvs k v) k₁ = lookupKey kvs k₁
  | [], k, k₁, v, h => by simp [setKey, lookupKey, h]
  | (k₀, w) :: rest, k, k₁, v, h => by
    by_cases h₀ : k₀ = k
    · subst h₀
      simp [setKey, lookupKey, h]
    · simp only [setKey, if_neg h₀]
      by_cases h₁ : k₀ = k₁
      · simp [lookupKey, h₁]
      · simp [lookupKey, h₁, lookupKey_setKey_ne rest v h]

theorem setKey_lookup_self : ∀ (kvs : Entries) {k : String} {v : Val},
    lookupKey kvs k = some v → setKey kvs k v = kvs
  | [], k, v, h => by simp [lookupKey] at h
  | (k₀, w) :: rest, k, v, h => by
    by_cases he : k₀ = k
    · subst he
      have h' : w = v := by simpa [lookupKey] using h
      simp [setKey, h']
    · simp only [lookupKey, if_neg he] at h
      simp [setKey, he, setKey_lookup_self rest h]

theorem map_id_of_mem {α : Type} {f : α → α} :
    ∀ {l : List α}, (∀ x ∈ l, f x = x) → l.map f = l
  | [], _ => rfl
  | x :: xs, h => by
    simp only [List.map_cons, h x (by simp)]
    rw [map_id_of_mem (fun y hy => h y (by simp [hy]))]

theorem map_congr_mem {α β : Type} {f g : α → β} :
    ∀ {l : List α}, (∀ x ∈ l, f x = g x) → l.map f = l.map g
  | [], _ => rfl
  | x :: xs, h => by
    simp only [List.map_cons, h x (by simp)]
    rw [map_congr_mem (fun y hy => h y (by simp [hy]))]

def isListV : Val → Bool
  | .list _ => true
  | _ => false

/-- Abbreviation for the sorted fields value that procEntity assigns. -/
def fieldsSortedVal (kvs : Entries) : Val :=
  .list (sort_fields (Val.asList ((lookupKey kvs "fields").getD (.list []))))

theorem sort_fields_idem (l : List Val) : sort_fields (sort_fields l) = sort_fields l :=
  sortByKey_idem nameKey l

theorem fieldsSortedVal_set (kvs : Entries) :
    fieldsSortedVal (setKey kvs "fields" (fieldsSortedVal kvs)) = fieldsSortedVal kvs := by
  simp [fieldsSortedVal, lookupKey_setKey_self, Val.asList, sort_fields_idem]

theorem procEntity_dict_none {kvs : Entries} (h : lookupKey kvs "tags" = none) :
    procEntity (.dict kvs) = .dict (setKey kvs "fields" (fieldsSortedVal kvs)) := by
  simp only [procEntity, Val.dset, Val.getD, Val.get?, Val.entries, fieldsSortedVal]
  rw [lookupKey_setKey_ne kvs _ (by decide), h]

theorem procEntity_dict_list {kvs : Entries} {ts : List Val}
    (h : lookupKey kvs "tags" = some (.list ts)) :
    procEntity (.dict kvs) =
      .dict (setKey (setKey kvs "fields" (fieldsSortedVal kvs)) "tags"
        (.list (sortStrVals ts))) := by
  simp only [procEntity, Val.dset, Val.getD, Val.get?, Val.entries, fieldsSortedVal]
  rw [lookupKey_setKey_ne kvs _ (by decide), h]

theorem procEntity_dict_other {kvs : Entries} {tv : Val}
    (h : lookupKey kvs "tags" = some tv) (hnl : isListV tv = false) :
    procEntity (.dict kvs) = .dict (setKey kvs "fields" (fieldsSortedVal kvs)) := by
  simp only [procEntity, Val.dset, Val.getD, Val.get?, Val.entries, fieldsSortedVal]
  rw [lookupKey_setKey_ne kvs _ (by decide), h]
  cases tv with
  | list ts => simp [isListV] at hnl
  | null => rfl
  | bool b => rfl
  | int n => rfl
  | str s => rfl
  | dict d => rfl

theorem procEntity_idem_other {kvs : Entries} {tv : Val}
    (htags : lookupKey kvs "tags" = some tv) (hnl : isListV tv = false) :
    procEntity (procEntity (.dict kvs)) = procEntity (.dict kvs) := by
  have hset : lookupKey (setKey kvs "fields" (fieldsSortedVal kvs)) "fields" =
      some (fieldsSortedVal kvs) := lookupKey_setKey_self kvs _ _
  rw [procEntity_dict_other htags hnl]
  rw [procEntity_dict_other
    (by rw [lookupKey_setKey_ne kvs _ (by decide)]; exact htags) hnl]
  rw [fieldsSortedVal_set, setKey_lookup_self _ hset]

theorem procEntity_idem (e : Val) : procEntity (procEntity e) = procEntity e := by
  cases e with
  | null => rfl
  | bool b => rfl
  | int n => rfl
  | str s => rfl
  | list xs => rfl
  | dict kvs =>
    have hset : lookupKey (setKey kvs "fields" (fieldsSortedVal kvs)) "fields" =
        some (fieldsSortedVal kvs) := lookupKey_setKey_self kvs _ _
    rcases htags : lookupKey kvs "tags" with _ | tv
    · rw [procEntity_dict_none htags]
      rw [procEntity_dict_none
        (by rw [lookupKey_setKey_ne kvs _ (by decide)]; exact htags)]
      rw [fieldsSortedVal_set, setKey_lookup_self _ hset]
    · cases tv with
      | null => exact procEntity_idem_other htags rfl
      | bool b => exact procEntity_idem_other htags rfl
      | int n => exact procEntity_idem_other htags rfl
      | str s => exact procEntity_idem_other htags rfl
      | dict d => exact procEntity_idem_other htags rfl
      | list ts =>
        rw [procEntity_dict_list htags]
        have hT : lookupKey
            (setKey (setKey kvs "fields" (fieldsSortedVal kvs)) "tags"
              (.list (sortStrVals ts))) "tags" = some (.list (sortStrVals ts)) :=
          lookupKey_setKey_self _ _ _
        rw [procEntity_dict_list hT]
        have hF : fieldsSortedVal
            (setKey (setKey kvs "fields" (fieldsSortedVal kvs)) "tags"
              (.list (sortStrVals ts))) = fieldsSortedVal kvs := by
          simp only [fieldsSortedVal]
          rw [lookupKey_setKey_ne _ _ (by decide), lookupKey_setKey_self]
          simp [Val.asList, sort_fields_idem]
        rw [hF]
        have hFset : lookupKey
            (setKey (setKey kvs "fields" (fieldsSortedVal kvs)) "tags"
              (.list (sortStrVals ts))) "fields" = some (fieldsSortedVal kvs) := by
          rw [lookupKey_setKey_ne _ _ (by decide)]
          exact hset
        rw [setKey_lookup_self _ hFset, sortStrVals_idem, setKey_lookup_self _ hT]

def isSomeList : Option Val → Bool
  | some (.list _) => true
  | _ => false

def isSomeDict : Option Val → Bool
  | some (.dict _) => true
  | _ => false

theorem procTerm_dict_ll {kvs : Entries} {rf ts : List Val}
    (hrf : lookupKey kvs "related_fields" = some (.list rf))
    (htg : lookupKey kvs "tags" = some (.list ts)) :
    procTerm (.dict kvs) =
      .dict (setKey (setKey kvs "related_fields" (.list (sortStrVals rf))) "tags"
        (.list (sortStrVals ts))) := by
  simp only [procTerm, Val.dset, Val.get?, Val.entries]
  rw [hrf]
  rw [lookupKey_setKey_ne kvs _ (by decide), htg]

theorem procTerm_dict_lo {kvs : Entries} {rf : List Val}
    (hrf : lookupKey kvs "related_fields" = some (.list rf))
    (htg : isSomeList (lookupKey kvs "tags") = false) :
    procTerm (.dict kvs) = .dict (setKey kvs "related_fields" (.list (sortStrVals rf))) := by
  simp only [procTerm, Val.dset, Val.get?, Val.entries]
  rw [hrf]
  rw [lookupKey_setKey_ne kvs _ (by decide)]
  rcases ho : lookupKey kvs "tags" with _ | tv
  · rfl
  · rw [ho] at htg
    cases tv <;> first | rfl | simp [isSomeList] at htg

theorem procTerm_dict_ol {kvs : Entries} {ts : List Val}
    (hrf : isSomeList (lookupKey kvs "related_fields") = false)
    (htg : lookupKey kvs "tags" = some (.list ts)) :
    procTerm (.dict kvs) = .dict (setKey kvs "tags" (.list (sortStrVals ts))) := by
  simp only [procTerm, Val.dset, Val.get?, Val.entries]
  rcases ho : lookupKey kvs "related_fields" with _ | tv
  · rw [htg]
  · rw [ho] at hrf
    cases tv <;> first | rw [htg] | simp [isSomeList] at hrf

theorem procTerm_dict_oo {kvs : Entries}
    (hrf : isSomeList (lookupKey kvs "related_fields") = false)
    (htg : isSomeList (lookupKey kvs "tags") = false) :
    procTerm (.dict kvs) = .dict kvs := by
  simp only [procTerm, Val.dset, Val.get?, Val.entries]
  rcases ho : lookupKey kvs "related_fields" with _ | tv
  · rcases ht : lookupKey kvs "tags" with _ | tw
    · rfl
    · rw [ht] at htg
      cases tw <;> first | rfl | simp [isSomeList] at htg
  · rw [ho] at hrf
    cases tv <;> try simp [isSomeList] at hrf
    all_goals
      rcases ht : lookupKey kvs "tags" with _ | tw
    all_goals try rfl
    all_goals
      rw [ht] at htg
      cases tw <;> first | rfl | simp [isSomeList] at htg

theorem procTerm_idem (t : Val) : procTerm (procTerm t) = procTerm t := by
  cases t with
  | null => rfl
  | bool b => rfl
  | int n => rfl
  | str s => rfl
  | list xs => rfl
  | dict kvs =>
    rcases hrf : isSomeList (lookupKey kvs "related_fields") with _ | _
    · rcases htg : isSomeList (lookupKey kvs "tags") with _ | _
      · rw [procTerm_dict_oo hrf htg, procTerm_dict_oo hrf htg]
      · obtain ⟨ts, hts⟩ : ∃ ts, lookupKey kvs "tags" = some (.list ts) := by
          rcases ho : lookupKey kvs "tags" with _ | tv
          · rw [ho] at htg; simp [isSomeList] at htg
          · rw [ho] at htg
            cases tv <;> simp [isSomeList] at htg
            exact ⟨_, rfl⟩
        rw [procTerm_dict_ol hrf hts]
        have h₁ : isSomeList (lookupKey (setKey kvs "tags" (.list (sortStrVals ts)))
            "related_fields") = false := by
          rw [lookupKey_setKey_ne kvs _ (by decide)]; exact hrf
        have h₂ : lookupKey (setKey kvs "tags" (.list (sortStrVals ts))) "tags" =
            some (.list (sortStrVals ts)) := lookupKey_setKey_self kvs _ _
        rw [procTerm_dict_ol h₁ h₂, sortStrVals_idem, setKey_lookup_self _ h₂]
    · obtain ⟨rf, hrfl⟩ : ∃ rf, lookupKey kvs "related_fields" = some (.list rf) := by
        rcases ho : lookupKey kvs "related_fields" with _ | tv
        · rw [ho] at hrf; simp [isSomeList] at hrf
        · rw [ho] at hrf
          cases tv <;> simp [isSomeList] at hrf
          exact ⟨_, rfl⟩
      rcases htg : isSomeList (lookupKey kvs "tags") with _ | _
      · rw [procTerm_dict_lo hrfl htg]
        have h₁ : lookupKey (setKey kvs "related_fields" (.list (sortStrVals rf)))
            "related_fields" = some (.list (sortStrVals rf)) :=
          lookupKey_setKey_self kvs _ _
        have h₂ : isSomeList (lookupKey (setKey kvs "related_fields"
            (.list (sortStrVals rf))) "tags") = false := by
          rw [lookupKey_setKey_ne kvs _ (by decide)]; exact htg
        rw [procTerm_dict_lo h₁ h₂, sortStrVals_idem, setKey_lookup_self _ h₁]
      · obtain ⟨ts, hts⟩ : ∃ ts, lookupKey kvs "tags" = some (.list ts) := by
          rcases ho : lookupKey kvs "tags" with _ | tv
          · rw [ho] at htg; simp [isSomeList] at htg
          · rw [ho] at htg
            cases tv <;> simp [isSomeList] at htg
            exact ⟨_, rfl⟩
        rw [procTerm_dict_ll hrfl hts]
        have h₁ : lookupKey (setKey (setKey kvs "related_fields"
              (.list (sortStrVals rf))) "tags" (.list (sortStrVals ts)))
            "related_fields" = some (.list (sortStrVals rf)) := by
          rw [lookupKey_setKey_ne _ _ (by decide)]
          exact lookupKey_setKey_self kvs _ _
        have h₂ : lookupKey (setKey (setKey kvs "related_fields"
              (.list (sortStrVals rf))) "tags" (.list (sortStrVals ts))) "tags" =
            some (.list (sortStrVals ts)) := lookupKey_setKey_self _ _ _
        rw [procTerm_dict_ll h₁ h₂, sortStrVals_idem, sortStrVals_idem,
          setKey_lookup_self _ h₁, setKey_lookup_self _ h₂]

theorem procOwners_dict_list {kvs : Entries} {ow : List Val}
    (h : lookupKey kvs "owners" = some (.list ow)) :
    procOwners (.dict kvs) = .dict (setKey kvs "owners" (.list (sortStrVals ow))) := by
  simp only [procOwners, Val.dset, Val.get?, Val.entries]
  rw [h]

theorem procOwners_dict_other {kvs : Entries}
    (h : isSomeList (lookupKey kvs "owners") = false) :
    procOwners (.dict kvs) = .dict kvs := by
  simp only [procOwners, Val.dset, Val.get?, Val.entries]
  rcases ho : lookupKey kvs "owners" with _ | tv
  · rfl
  · rw [ho] at h
    cases tv <;> first | rfl | simp [isSomeList] at h

theorem procOwners_idem (v : Val) : procOwners (procOwners v) = procOwners v := by
  cases v with
  | null => rfl
  | bool b => rfl
  | int n => rfl
  | str s => rfl
  | list xs => rfl
  | dict kvs =>
    rcases how : isSomeList (lookupKey kvs "owners") with _ | _
    · rw [procOwners_dict_other how, procOwners_dict_other how]
    · obtain ⟨ow, howl⟩ : ∃ ow, lookupKey kvs "owners" = some (.list ow) := by
        rcases ho : lookupKey kvs "owners" with _ | tv
        · rw [ho] at how; simp [isSomeList] at how
        · rw [ho] at how
          cases tv <;> simp [isSomeList] at how
          exact ⟨_, rfl⟩
      rw [procOwners_dict_list howl]
      have h₁ : lookupKey (setKey kvs "owners" (.list (sortStrVals ow))) "owners" =
          some (.list (sortStrVals ow)) := lookupKey_setKey_self kvs _ _
      rw [procOwners_dict_list h₁, sortStrVals_idem, setKey_lookup_self _ h₁]

theorem lookupKey_map_pair (f : String → Val) : ∀ (ks : List String) (k : String),
    lookupKey (ks.map (fun k => (k, f k))) k = if k ∈ ks then some (f k) else none
  | [], k => by simp [lookupKey]
  | k₀ :: ks, k => by
    by_cases h : k₀ = k
    · subst h
      simp [lookupKey]
    · have h' : ¬ k = k₀ := fun hh => h hh.symm
      simp [lookupKey, h, h', lookupKey_map_pair f ks k]

theorem map_fst_map_pair (f : String → Val) : ∀ ks : List String,
    (ks.map (fun k => (k, f k))).map Prod.fst = ks
  | [] => rfl
  | k :: ks => by simp [map_fst_map_pair f ks]

theorem rekeyAsc_idem (kvs : Entries) : rekeyAsc (rekeyAsc kvs) = rekeyAsc kvs := by
  unfold rekeyAsc
  rw [map_fst_map_pair]
  rw [sortLe_of_pairwise strLe
    (sortLe_pairwise strLe strLe_total (fun _ _ _ h₁ h₂ => strLe_trans h₁ h₂) _)]
  refine map_congr_mem ?_
  intro k hk
  rw [lookupKey_map_pair, if_pos hk]
  rfl

theorem procGovernance_dict_dd {kvs : Entries} {c s : Entries}
    (hc : lookupKey kvs "classification" = some (.dict c))
    (hs : lookupKey kvs "stewards" = some (.dict s)) :
    procGovernance (.dict kvs) =
      .dict (setKey (setKey kvs "classification" (.dict (rekeyAsc c))) "stewards"
        (.dict (rekeyAsc s))) := by
  simp only [procGovernance, Val.dset, Val.get?, Val.entries]
  rw [hc]
  rw [lookupKey_setKey_ne kvs _ (by decide), hs]

theorem procGovernance_dict_do {kvs : Entries} {c : Entries}
    (hc : lookupKey kvs "classification" = some (.dict c))
    (hs : isSomeDict (lookupKey kvs "stewards") = false) :
    procGovernance (.dict kvs) =
      .dict (setKey kvs "classification" (.dict (rekeyAsc c))) := by
  simp only [procGovernance, Val.dset, Val.get?, Val.entries]
  rw [hc]
  rw [lookupKey_setKey_ne kvs _ (by decide)]
  rcases ho : lookupKey kvs "stewards" with _ | tv
  · rfl
  · rw [ho] at hs
    cases tv <;> first | rfl | simp [isSomeDict] at hs

theorem procGovernance_dict_od {kvs : Entries} {s : Entries}
    (hc : isSomeDict (lookupKey kvs "classification") = false)
    (hs : lookupKey kvs "stewards" = some (.dict s)) :
    procGovernance (.dict kvs) = .dict (setKey kvs "stewards" (.dict (rekeyAsc s))) := by
  simp only [procGovernance, Val.dset, Val.get?, Val.entries]
  rcases ho : lookupKey kvs "classification" with _ | tv
  · rw [hs]
  · rw [ho] at hc
    cases tv <;> first | rw [hs] | simp [isSomeDict] at hc

theorem procGovernance_dict_oo {kvs : Entries}
    (hc : isSomeDict (lookupKey kvs "classification") = false)
    (hs : isSomeDict (lookupKey kvs "stewards") = false) :
    procGovernance (.dict kvs) = .dict kvs := by
  simp only [procGovernance, Val.dset, Val.get?, Val.entries]
  rcases ho : lookupKey kvs "classification" with _ | tv
  · rcases ht : lookupKey kvs "stewards" with _ | tw
    · rfl
    · rw [ht] at hs
      cases tw <;> first | rfl | simp [isSomeDict] at hs
  · rw [ho] at hc
    cases tv <;> try simp [isSomeDict] at hc
    all_goals
      rcases ht : lookupKey kvs "stewards" with _ | tw
    all_goals try rfl
    all_goals
      rw [ht] at hs
      cases tw <;> first | rfl | simp [isSomeDict] at hs

theorem procGovernance_idem (v : Val) : procGovernance (procGovernance v) = procGovernance v := by
  cases v with
  | null => rfl
  | bool b => rfl
  | int n => rfl
  | str s => rfl
  | list xs => rfl
  | dict kvs =>
    rcases hc : isSomeDict (lookupKey kvs "classification") with _ | _
    · rcases hs : isSomeDict (lookupKey kvs "stewards") with _ | _
      · rw [procGovernance_dict_oo hc hs, procGovernance_dict_oo hc hs]
      · obtain ⟨s, hsd⟩ : ∃ s, lookupKey kvs "stewards" = some (.dict s) := by
          rcases ho : lookupKey kvs "stewards" with _ | tv
          · rw [ho] at hs; simp [isSomeDict] at hs
          · rw [ho] at hs
            cases tv <;> simp [isSomeDict] at hs
            exact ⟨_, rfl⟩
        rw [procGovernance_dict_od hc hsd]
        have h₁ : isSomeDict (lookupKey (setKey kvs "stewards" (.dict (rekeyAsc s)))
            "classification") = false := by
          rw [lookupKey_setKey_ne kvs _ (by decide)]; exact hc
        have h₂ : lookupKey (setKey kvs "stewards" (.dict (rekeyAsc s))) "stewards" =
            some (.dict (rekeyAsc s)) := lookupKey_setKey_self kvs _ _
        rw [procGovernance_dict_od h₁ h₂, rekeyAsc_idem, setKey_lookup_self _ h₂]
    · obtain ⟨c, hcd⟩ : ∃ c, lookupKey kvs "classification" = some (.dict c) := by
        rcases ho : lookupKey kvs "classification" with _ | tv
        · rw [ho] at hc; simp [isSomeDict] at hc
        · rw [ho] at hc
          cases tv <;> simp [isSomeDict] at hc
          exact ⟨_, rfl⟩
      rcases hs : isSomeDict (lookupKey kvs "stewards") with _ | _
      · rw [procGovernance_dict_do hcd hs]
        have h₁ : lookupKey (setKey kvs "classification" (.dict (rekeyAsc c)))
            "classification" = some (.dict (rekeyAsc c)) := lookupKey_setKey_self kvs _ _
        have h₂ : isSomeDict (lookupKey (setKey kvs "classification"
            (.dict (rekeyAsc c))) "stewards") = false := by
          rw [lookupKey_setKey_ne kvs _ (by decide)]; exact hs
        rw [procGovernance_dict_do h₁ h₂, rekeyAsc_idem, setKey_lookup_self _ h₁]
      · obtain ⟨s, hsd⟩ : ∃ s, lookupKey kvs "stewards" = some (.dict s) := by
          rcases ho : lookupKey kvs "stewards" with _ | tv
          · rw [ho] at hs; simp [isSomeDict] at hs
          · rw [ho] at hs
            cases tv <;> simp [isSomeDict] at hs
            exact ⟨_, rfl⟩
        rw [procGovernance_dict_dd hcd hsd]
        have h₁ : lookupKey (setKey (setKey kvs "classification"
              (.dict (rekeyAsc c))) "stewards" (.dict (rekeyAsc s)))
            "classification" = some (.dict (rekeyAsc c)) := by
          rw [lookupKey_setKey_ne _ _ (by decide)]
          exact lookupKey_setKey_self kvs _ _
        have h₂ : lookupKey (setKey (setKey kvs "classification"
              (.dict (rekeyAsc c))) "stewards" (.dict (rekeyAsc s))) "stewards" =
            some (.dict (rekeyAsc s)) := lookupKey_setKey_self _ _ _
        rw [procGovernance_dict_dd h₁ h₂, rekeyAsc_idem, rekeyAsc_idem,
          setKey_lookup_self _ h₁, setKey_lookup_self _ h₂]

theorem sortMap_idem (key : Val → List String) (proc : Val → Val)
    (hidem : ∀ e, proc (proc e) = proc e) (l : List Val) :
    sortByKey key ((sortByKey key (l.map proc)).map proc) = sortByKey key (l.map proc) := by
  have hmem : ∀ x ∈ sortByKey key (l.map proc), proc x = x := by
    intro x hx
    have hx' : x ∈ l.map proc := (sortLe_perm (keyLeOf key) (l.map proc)).mem_iff.mp hx
    rcases List.mem_map.mp hx' with ⟨y, _, rfl⟩
    exact hidem y
  rw [map_id_of_mem hmem, sortByKey_idem]

theorem sort_entities_idem (l : List Val) :
    sort_entities (sort_entities l) = sort_entities l :=
  sortMap_idem nameKey procEntity procEntity_idem l

theorem sort_glossary_idem (l : List Val) :
    sort_glossary (sort_glossary l) = sort_glossary l :=
  sortMap_idem termKey procTerm procTerm_idem l

theorem sort_relationships_idem (l : List Val) :
    sort_relationships (sort_relationships l) = sort_relationships l :=
  sortByKey_idem relKey l

theorem sort_rules_idem (l : List Val) :
    sort_rules (sort_rules l) = sort_rules l :=
  sortByKey_idem ruleKey l

theorem sort_indexes_idem (l : List Val) :
    sort_indexes (sort_indexes l) = sort_indexes l :=
  sortByKey_idem idxKey l

/-- Evaluation of compile_model on a dict that already has the shape of a
canonical output (the eight keys, in construction order). -/
theorem compile_model_on_canonical (mo : Val) (en re idx ru : List Val)
    (gov : Val) (gl : List Val) (di : Val) :
    compile_model (.dict
      [("model", mo), ("entities", .list en), ("relationships", .list re),
       ("indexes", .list idx), ("rules", .list ru), ("governance", gov),
       ("glossary", .list gl), ("display", di)]) =
    .dict
      [("model", procOwners mo),
       ("entities", .list (sort_entities en)),
       ("relationships", .list (sort_relationships re)),
       ("indexes", .list (sort_indexes idx)),
       ("rules", .list (sort_rules ru)),
       ("governance", procGovernance gov),
       ("glossary", .list (sort_glossary gl)),
       ("display", di)] := rfl

/-- Unfolding of compile_model into its eight computed components. -/
theorem compile_model_unfold (m : Val) :
    compile_model m = .dict
      [("model", procOwners (m.getD "model" (.dict []))),
       ("entities", .list (sort_entities (Val.asList (m.getD "entities" (.list []))))),
       ("relationships",
         .list (sort_relationships (Val.asList (m.getD "relationships" (.list []))))),
       ("indexes", .list (sort_indexes (Val.asList (m.getD "indexes" (.list []))))),
       ("rules", .list (sort_rules (Val.asList (m.getD "rules" (.list []))))),
       ("governance", procGovernance (m.getD "governance" (.dict []))),
       ("glossary", .list (sort_glossary (Val.asList (m.getD "glossary" (.list []))))),
       ("display", m.getD "display" (.dict []))] := rfl

/-- compile_model is idempotent: canonicalizing an already canonical document
returns it unchanged.  This holds for every document value, with no
well-formedness assumption. -/
theorem compile_model_idem (m : Val) : compile_model (compile_model m) = compile_model m := by
  rw [compile_model_unfold m, compile_model_on_canonical]
  rw [procOwners_idem, sort_entities_idem, sort_relationships_idem, sort_indexes_idem,
    sort_rules_idem, procGovernance_idem, sort_glossary_idem]

/-- Value relation at a permutable position: equal, or both lists with one a
permutation of the other. -/
def ValPermList (v v' : Val) : Prop :=
  v = v' ∨ ∃ xs xs', v = .list xs ∧ v' = .list xs' ∧ List.Perm xs xs'

/-- Entry-sequence relation: same keys in the same order, values related by R
at each position. -/
def EntriesRel (R : String → Val → Val → Prop) (kvs kvs' : Entries) : Prop :=
  List.Forall₂ (fun a b => a.1 = b.1 ∧ R a.1 a.2 b.2) kvs kvs'

/-- Values at keys listed in pk may be list-permuted; all others are equal. -/
def entryRelAt (pk : List String) (k : String) (v v' : Val) : Prop :=
  if k ∈ pk then ValPermList v v' else v = v'

/-- Permutation of an entity in the sense of claim C1: the entity dict is
unchanged except that its fields and tags lists may be permuted. -/
def EntityPerm (e e' : Val) : Prop :=
  e = e' ∨ ∃ kvs kvs', e = .dict kvs ∧ e' = .dict kvs' ∧
    EntriesRel (entryRelAt ["fields", "tags"]) kvs kvs'

/-- Permutation of a glossary term: related_fields and tags may be permuted. -/
def TermPerm (t t' : Val) : Prop :=
  t = t' ∨ ∃ kvs kvs', t = .dict kvs ∧ t' = .dict kvs' ∧
    EntriesRel (entryRelAt ["related_fields", "tags"]) kvs kvs'

/-- The second list is obtained from the first by relating items pointwise by
R and then permuting the result. -/
def PermUpTo (R : Val → Val → Prop) (l l' : List Val) : Prop :=
  ∃ lm, List.Forall₂ R l lm ∧ List.Perm lm l'

/-- Entry relation for the whole document, matching the permutation scope of
claim C1: the five top-level collections may be permuted (entities and
glossary items also in their inner fields, tags and related_fields lists);
every other entry, including the model block, governance and display, is
unchanged. -/
def docEntryRel (k : String) (v v' : Val) : Prop :=
  if k = "entities" then
    v = v' ∨ ∃ xs xs', v = .list xs ∧ v' = .list xs' ∧ PermUpTo EntityPerm xs xs'
  else if k = "glossary" then
    v = v' ∨ ∃ xs xs', v = .list xs ∧ v' = .list xs' ∧ PermUpTo TermPerm xs xs'
  else if k = "relationships" ∨ k = "indexes" ∨ k = "rules" then
    ValPermList v v'
  else v = v'

/-- The document m2 is obtained from m1 by permuting top-level collections or
the sub-lists inside them, exactly as quantified in claim C1. -/
def DocPerm (m1 m2 : Val) : Prop :=
  ∃ kvs kvs', m1 = .dict kvs ∧ m2 = .dict kvs' ∧ EntriesRel docEntryRel kvs kvs'

def allStr (xs : List Val) : Bool :=
  xs.all fun v => match v with | .str _ => true | _ => false

def nodupStr : List String → Bool
  | [] => true
  | k :: ks => (ks.all fun k' => !(k == k')) && nodupStr ks

/-- Pairwise-distinct sort keys of a list of items. -/
def nodupKeys (key : Val → List String) : List Val → Bool
  | [] => true
  | x :: xs => (xs.all fun y => !(key x == key y)) && nodupKeys key xs

def entsOf (m : Val) : List Val := Val.asList (m.getD "entities" (.list []))

def relsOf (m : Val) : List Val := Val.asList (m.getD "relationships" (.list []))

def idxsOf (m : Val) : List Val := Val.asList (m.getD "indexes" (.list []))

def rulesOf (m : Val) : List Val := Val.asList (m.getD "rules" (.list []))

def glosOf (m : Val) : List Val := Val.asList (m.getD "glossary" (.list []))

def fieldsOfE (e : Val) : List Val := Val.asList (e.getD "fields" (.list []))

def tagsOk (e : Val) : Bool :=
  match e.get? "tags" with | some (.list ts) => allStr ts | _ => true

def rfOk (t : Val) : Bool :=
  match t.get? "related_fields" with | some (.list rf) => allStr rf | _ => true

def dictKeysOk (e : Val) : Bool :=
  match e with | .dict kvs => nodupStr (kvs.map Prod.fst) | _ => true

/-- Well-formedness needed for order-insensitivity: entity and glossary dicts
have unique keys (always true of real Python dicts) and their tags and
related_fields lists, when lists, contain strings (as the data model
requires). -/
def wfCanonB (m : Val) : Bool :=
  ((entsOf m).all fun e => dictKeysOk e && tagsOk e) &&
  ((glosOf m).all fun t => dictKeysOk t && rfOk t && tagsOk t)

/-- Pairwise-distinct sort keys in every sorted collection: entity names,
per-entity field names, relationship (name, from, to, cardinality) tuples,
index (name, entity) and rule (name, target) pairs, and glossary terms. -/
def distinctKeysB (m : Val) : Bool :=
  nodupKeys nameKey (entsOf m) &&
  ((entsOf m).all fun e => nodupKeys nameKey (fieldsOfE e)) &&
  nodupKeys relKey (relsOf m) &&
  nodupKeys idxKey (idxsOf m) &&
  nodupKeys ruleKey (rulesOf m) &&
  nodupKeys termKey (glosOf m)

theorem nodupKeys_inj {key : Val → List String} :
    ∀ {xs : List Val}, nodupKeys key xs = true →
      ∀ a ∈ xs, ∀ b ∈ xs, key a = key b → a = b
  | [], _, a, ha, _, _, _ => absurd ha (by simp)
  | x :: xs, h, a, ha, b, hb, hk => by
    simp only [nodupKeys, Bool.and_eq_true, List.all_eq_true] at h
    obtain ⟨hne, hrest⟩ := h
    rcases List.mem_cons.mp ha with ha1 | ha2
    · rcases List.mem_cons.mp hb with hb1 | hb2
      · rw [ha1, hb1]
      · exfalso
        have hx := hne b hb2
        have hke : key x = key b := by rw [← ha1, hk]
        simp [hke] at hx
    · rcases List.mem_cons.mp hb with hb1 | hb2
      · exfalso
        have hx := hne a ha2
        have hke : key x = key a := by rw [← hb1, ← hk]
        simp [hke] at hx
      · exact nodupKeys_inj hrest a ha2 b hb2 hk

theorem sortByKey_congr (key : Val → List String) {l l' : List Val}
    (h : List.Perm l l') (hnd : nodupKeys key l = true) :
    sortByKey key l = sortByKey key l' := by
  refine sortLe_congr_perm (keyLeOf key) (fun a b => keyLe_total (key a) (key b))
    (fun a b c => keyLe_trans (key a) (key b) (key c)) h ?_
  intro a ha b hb h₁ h₂
  exact nodupKeys_inj hnd a ha b hb (keyLe_antisymm (key a) (key b) h₁ h₂)

theorem sortStrVals_congr {l l' : List Val} (h : List.Perm l l')
    (hstr : allStr l = true) : sortStrVals l = sortStrVals l' := by
  refine sortLe_congr_perm strValLe (fun a b => strLe_total a.asStr b.asStr)
    (fun _ _ _ h₁ h₂ => strLe_trans h₁ h₂) h ?_
  intro a ha b hb h₁ h₂
  simp only [allStr, List.all_eq_true] at hstr
  have hae := hstr a ha
  have hbe := hstr b hb
  have heq : a.asStr = b.asStr := strLe_antisymm h₁ h₂
  cases a <;> simp at hae
  cases b <;> simp at hbe
  simpa [Val.asStr] using heq

theorem entryRelAt_refl (pk : List String) (k : String) (v : Val) :
    entryRelAt pk k v v := by
  unfold entryRelAt
  split
  · exact Or.inl rfl
  · rfl

theorem lookup_entriesRel {R : String → Val → Val → Prop} :
    ∀ {kvs kvs' : Entries}, EntriesRel R kvs kvs' → ∀ k : String,
      (lookupKey kvs k = none ∧ lookupKey kvs' k = none) ∨
      (∃ v v', lookupKey kvs k = some v ∧ lookupKey kvs' k = some v' ∧ R k v v')
  | [], [], _, k => Or.inl ⟨rfl, rfl⟩
  | [], _ :: _, h, _ => nomatch h
  | _ :: _, [], h, _ => nomatch h
  | (k₀, v₀) :: kvs, (k₁, v₁) :: kvs', h, k => by
    cases h with
    | cons hab htail =>
      obtain ⟨hk, hr⟩ := hab
      simp only at hk
      by_cases he : k₀ = k
      · refine Or.inr ⟨v₀, v₁, ?_, ?_, ?_⟩
        · simp [lookupKey, he]
        · simp [lookupKey, ← hk, he]
        · rw [← he]; exact hr
      · have he' : k₁ ≠ k := by rw [← hk]; exact he
        simp only [lookupKey, if_neg he, if_neg he']
        exact lookup_entriesRel htail k

theorem setKey_rel {pk : List String} (k : String) (v : Val) :
    ∀ {kvs kvs' : Entries}, EntriesRel (entryRelAt pk) kvs kvs' →
      EntriesRel (entryRelAt pk) (setKey kvs k v) (setKey kvs' k v)
  | [], [], _ => List.Forall₂.cons ⟨rfl, entryRelAt_refl pk k v⟩ List.Forall₂.nil
  | [], _ :: _, h => nomatch h
  | _ :: _, [], h => nomatch h
  | (k₀, v₀) :: kvs, (k₁, v₁) :: kvs', h => by
    cases h with
    | cons hab htail =>
      obtain ⟨hk, hr⟩ := hab
      simp only at hk
      subst hk
      by_cases he : k₀ = k
      · simp only [setKey, if_pos he]
        exact List.Forall₂.cons ⟨rfl, entryRelAt_refl pk k₀ v⟩ htail
      · simp only [setKey, if_neg he]
        exact List.Forall₂.cons ⟨rfl, hr⟩ (setKey_rel k v htail)

theorem lookup_none_of_not_mem : ∀ {kvs : Entries} {k : String},
    k ∉ kvs.map Prod.fst → lookupKey kvs k = none
  | [], _, _ => rfl
  | (k₀, v) :: kvs, k, h => by
    have h₀ : k₀ ≠ k := fun he => h (by simp [he])
    have h₁ : k ∉ kvs.map Prod.fst := fun hm => h (by simp [hm])
    simp [lookupKey, h₀, lookup_none_of_not_mem h₁]

theorem mem_keys_of_lookup_some : ∀ {kvs : Entries} {k : String} {v : Val},
    lookupKey kvs k = some v → k ∈ kvs.map Prod.fst
  | [], _, _, h => by simp [lookupKey] at h
  | (k₀, v₀) :: kvs, k, v, h => by
    by_cases he : k₀ = k
    · simp [he]
    · simp only [lookupKey, if_neg he] at h
      simp [mem_keys_of_lookup_some h]

theorem mem_keys_setKey : ∀ {kvs : Entries} {k k' : String} {v : Val},
    k' ∈ (setKey kvs k v).map Prod.fst → k' ∈ kvs.map Prod.fst ∨ k' = k
  | [], k, k', v, h => by
    simp [setKey] at h
    exact Or.inr h
  | (k₀, v₀) :: kvs, k, k', v, h => by
    by_cases he : k₀ = k
    · simp only [setKey, if_pos he, List.map_cons, List.mem_cons] at h
      rcases h with h | h
      · exact Or.inl (by simp [h])
      · exact Or.inl (by simp [h])
    · simp only [setKey, if_neg he, List.map_cons, List.mem_cons] at h
      rcases h with h | h
      · exact Or.inl (by simp [h])
      · rcases mem_keys_setKey h with h' | h'
        · exact Or.inl (by simp [h'])
        · exact Or.inr h'

theorem nodupStr_setKey : ∀ {kvs : Entries} (k : String) (v : Val),
    nodupStr (kvs.map Prod.fst) = true → nodupStr ((setKey kvs k v).map Prod.fst) = true
  | [], k, v, _ => by simp [setKey, nodupStr]
  | (k₀, v₀) :: kvs, k, v, h => by
    simp only [List.map_cons, nodupStr, Bool.and_eq_true, List.all_eq_true] at h
    obtain ⟨hall, htail⟩ := h
    by_cases he : k₀ = k
    · simp only [setKey, if_pos he, List.map_cons, nodupStr, Bool.and_eq_true,
        List.all_eq_true]
      exact ⟨hall, htail⟩
    · simp only [setKey, if_neg he, List.map_cons, nodupStr, Bool.and_eq_true,
        List.all_eq_true]
      refine ⟨?_, nodupStr_setKey k v htail⟩
      intro k' hk'
      rcases mem_keys_setKey hk' with hm | rfl
      · exact hall k' hm
      · simp [he]

theorem entriesRel_eq_resolved {pk : List String} :
    ∀ {kvs kvs' : Entries}, EntriesRel (entryRelAt pk) kvs kvs' →
      nodupStr (kvs.map Prod.fst) = true →
      (∀ k ∈ pk, ∀ v v', lookupKey kvs k = some v → lookupKey kvs' k = some v' → v = v') →
      kvs = kvs'
  | [], [], _, _, _ => rfl
  | [], _ :: _, h, _, _ => nomatch h
  | _ :: _, [], h, _, _ => nomatch h
  | (k₀, v₀) :: kvs, (k₁, v₁) :: kvs', h, hnd, hres => by
    cases h with
    | cons hab htail =>
      obtain ⟨hk, hr⟩ := hab
      simp only at hk
      subst hk
      simp only [List.map_cons, nodupStr, Bool.and_eq_true, List.all_eq_true] at hnd
      obtain ⟨hall, htand⟩ := hnd
      have hv : v₀ = v₁ := by
        unfold entryRelAt at hr
        split at hr
        · next hmem =>
          exact hres k₀ hmem v₀ v₁ (by simp [lookupKey]) (by simp [lookupKey])
        · exact hr
      subst hv
      refine congrArg ((k₀, v₀) :: ·) ?_
      refine entriesRel_eq_resolved htail htand ?_
      intro k hkpk v v' hv hv'
      by_cases he : k = k₀
      · exfalso
        subst he
        have hmem := mem_keys_of_lookup_some hv
        have := hall k hmem
        simp at this
      · have he' : k₀ ≠ k := fun hh => he hh.symm
        exact hres k hkpk v v' (by simpa [lookupKey, he'] using hv)
          (by simpa [lookupKey, he'] using hv')

theorem valPermList_eq_of_not_list {v v' : Val} (h : ValPermList v v')
    (hnl : isListV v = false) : v = v' := by
  rcases h with rfl | ⟨xs, xs', rfl, rfl, _⟩
  · rfl
  · simp [isListV] at hnl

theorem tags_allStr {kvs : Entries} {ts : List Val} (htok : tagsOk (.dict kvs) = true)
    (h : lookupKey kvs "tags" = some (.list ts)) : allStr ts = true := by
  simpa [tagsOk, Val.get?, Val.entries, h] using htok

theorem rf_allStr {kvs : Entries} {rf : List Val} (hok : rfOk (.dict kvs) = true)
    (h : lookupKey kvs "related_fields" = some (.list rf)) : allStr rf = true := by
  simpa [rfOk, Val.get?, Val.entries, h] using hok

theorem fieldsSortedVal_congr {kvs kvs' : Entries}
    (hrel : EntriesRel (entryRelAt ["fields", "tags"]) kvs kvs')
    (hfnd : nodupKeys nameKey (fieldsOfE (.dict kvs)) = true) :
    fieldsSortedVal kvs = fieldsSortedVal kvs' := by
  rcases lookup_entriesRel hrel "fields" with ⟨h1, h2⟩ | ⟨v, v', h1, h2, hr⟩
  · simp [fieldsSortedVal, h1, h2]
  · have hvp : ValPermList v v' := by simpa [entryRelAt] using hr
    rcases hvp with rfl | ⟨xs, xs', rfl, rfl, hperm⟩
    · simp [fieldsSortedVal, h1, h2]
    · simp only [fieldsSortedVal, h1, h2, Option.getD_some]
      refine congrArg Val.list ?_
      have hfx : fieldsOfE (.dict kvs) = xs := by
        simp [fieldsOfE, Val.getD, Val.get?, Val.entries, h1, Val.asList]
      exact sortByKey_congr nameKey hperm (hfx ▸ hfnd)

theorem procEntity_congr {e e' : Val} (hrel : EntityPerm e e')
    (hdk : dictKeysOk e = true) (htok : tagsOk e = true)
    (hfnd : nodupKeys nameKey (fieldsOfE e) = true) :
    procEntity e = procEntity e' := by
  rcases hrel with rfl | ⟨kvs, kvs', rfl, rfl, hrel⟩
  · rfl
  have hnd : nodupStr (kvs.map Prod.fst) = true := by simpa [dictKeysOk] using hdk
  have hFS : fieldsSortedVal kvs = fieldsSortedVal kvs' := fieldsSortedVal_congr hrel hfnd
  have hrel₁ : EntriesRel (entryRelAt ["fields", "tags"])
      (setKey kvs "fields" (fieldsSortedVal kvs))
      (setKey kvs' "fields" (fieldsSortedVal kvs)) :=
    setKey_rel "fields" (fieldsSortedVal kvs) hrel
  have hnd₁ : nodupStr ((setKey kvs "fields" (fieldsSortedVal kvs)).map Prod.fst) = true :=
    nodupStr_setKey "fields" _ hnd
  rcases lookup_entriesRel hrel "tags" with ⟨h1, h2⟩ | ⟨v, v', h1, h2, hr⟩
  · rw [procEntity_dict_none h1, procEntity_dict_none h2, ← hFS]
    refine congrArg Val.dict (entriesRel_eq_resolved hrel₁ hnd₁ ?_)
    intro k hk v₁ v₂ hv₁ hv₂
    simp only [List.mem_cons, List.not_mem_nil, or_false] at hk
    rcases hk with rfl | rfl
    · rw [lookupKey_setKey_self] at hv₁ hv₂
      exact (Option.some.inj hv₁).symm.trans (Option.some.inj hv₂)
    · rw [lookupKey_setKey_ne _ _ (by decide), h1] at hv₁
      exact absurd hv₁ (by simp)
  · have hvp : ValPermList v v' := by simpa [entryRelAt] using hr
    by_cases hl : isListV v = true
    · obtain ⟨ts, rfl⟩ : ∃ ts, v = Val.list ts := by
        cases v <;> simp [isListV] at hl
        exact ⟨_, rfl⟩
      obtain ⟨ts', h2', hperm⟩ : ∃ ts', lookupKey kvs' "tags" = some (.list ts') ∧
          List.Perm ts ts' := by
        rcases hvp with he | ⟨xs, xs', hx, hx', hperm⟩
        · exact ⟨ts, by rw [h2, ← he], List.Perm.refl ts⟩
        · cases hx
          cases hx'
          exact ⟨_, h2, hperm⟩
      have hT : sortStrVals ts = sortStrVals ts' :=
        sortStrVals_congr hperm (tags_allStr htok h1)
      rw [procEntity_dict_list h1, procEntity_dict_list h2', ← hFS, ← hT]
      have hrel₂ := setKey_rel "tags" (Val.list (sortStrVals ts)) hrel₁
      have hnd₂ := nodupStr_setKey "tags" (Val.list (sortStrVals ts)) hnd₁
      refine congrArg Val.dict (entriesRel_eq_resolved hrel₂ hnd₂ ?_)
      intro k hk v₁ v₂ hv₁ hv₂
      simp only [List.mem_cons, List.not_mem_nil, or_false] at hk
      rcases hk with rfl | rfl
      · rw [lookupKey_setKey_ne _ _ (by decide), lookupKey_setKey_self] at hv₁ hv₂
        exact (Option.some.inj hv₁).symm.trans (Option.some.inj hv₂)
      · rw [lookupKey_setKey_self] at hv₁ hv₂
        exact (Option.some.inj hv₁).symm.trans (Option.some.inj hv₂)
    · have hnl : isListV v = false := by simpa using hl
      have hvv : v = v' := valPermList_eq_of_not_list hvp hnl
      rw [procEntity_dict_other h1 hnl, procEntity_dict_other h2 (hvv ▸ hnl), ← hFS]
      refine congrArg Val.dict (entriesRel_eq_resolved hrel₁ hnd₁ ?_)
      intro k hk v₁ v₂ hv₁ hv₂
      simp only [List.mem_cons, List.not_mem_nil, or_false] at hk
      rcases hk with rfl | rfl
      · rw [lookupKey_setKey_self] at hv₁ hv₂
        exact (Option.some.inj hv₁).symm.trans (Option.some.inj hv₂)
      · rw [lookupKey_setKey_ne _ _ (by decide), h1] at hv₁
        rw [lookupKey_setKey_ne _ _ (by decide), h2] at hv₂
        rw [← Option.some.inj hv₁, ← Option.some.inj hv₂, hvv]

theorem procTerm_congr {t t' : Val} (hrel : TermPerm t t')
    (hdk : dictKeysOk t = true) (hrfk : rfOk t = true) (htok : tagsOk t = true) :
    procTerm t = procTerm t' := by
  rcases hrel with rfl | ⟨kvs, kvs', rfl, rfl, hrel⟩
  · rfl
  have hnd : nodupStr (kvs.map Prod.fst) = true := by simpa [dictKeysOk] using hdk
  have hrfOut : (isSomeList (lookupKey kvs "related_fields") = false ∧
      isSomeList (lookupKey kvs' "related_fields") = false ∧
      (∀ w w', lookupKey kvs "related_fields" = some w →
        lookupKey kvs' "related_fields" = some w' → w = w')) ∨
      (∃ a b, lookupKey kvs "related_fields" = some (.list a) ∧
        lookupKey kvs' "related_fields" = some (.list b) ∧
        sortStrVals a = sortStrVals b) := by
    rcases lookup_entriesRel hrel "related_fields" with ⟨h1, h2⟩ | ⟨v, v', h1, h2, hrr⟩
    · refine Or.inl ⟨by simp [h1, isSomeList], by simp [h2, isSomeList], ?_⟩
      intro w w' hw hw'
      rw [h1] at hw
      exact absurd hw (by simp)
    · have hvp : ValPermList v v' := by simpa [entryRelAt] using hrr
      by_cases hl : isListV v = true
      · obtain ⟨a, rfl⟩ : ∃ a, v = Val.list a := by
          cases v <;> simp [isListV] at hl
          exact ⟨_, rfl⟩
        obtain ⟨b, h2', hperm⟩ : ∃ b, lookupKey kvs' "related_fields" = some (.list b) ∧
            List.Perm a b := by
          rcases hvp with he | ⟨xs, xs', hx, hx', hp⟩
          · exact ⟨a, by rw [h2, ← he], List.Perm.refl _⟩
          · cases hx
            cases hx'
            exact ⟨_, h2, hp⟩
        exact Or.inr ⟨a, b, h1, h2', sortStrVals_congr hperm (rf_allStr hrfk h1)⟩
      · have hnl : isListV v = false := by simpa using hl
        have hvv := valPermList_eq_of_not_list hvp hnl
        refine Or.inl ⟨?_, ?_, ?_⟩
        · rw [h1]
          cases v <;> simp [isSomeList, isListV] at hnl ⊢
        · rw [h2, ← hvv]
          cases v <;> simp [isSomeList, isListV] at hnl ⊢
        · intro w w' hw hw'
          rw [h1] at hw
          rw [h2, ← hvv] at hw'
          exact (Option.some.inj hw).symm.trans (Option.some.inj hw')
  have htgOut : (isSomeList (lookupKey kvs "tags") = false ∧
      isSomeList (lookupKey kvs' "tags") = false ∧
      (∀ w w', lookupKey kvs "tags" = some w →
        lookupKey kvs' "tags" = some w' → w = w')) ∨
      (∃ a b, lookupKey kvs "tags" = some (.list a) ∧
        lookupKey kvs' "tags" = some (.list b) ∧
        sortStrVals a = sortStrVals b) := by
    rcases lookup_entriesRel hrel "tags" with ⟨h1, h2⟩ | ⟨v, v', h1, h2, hrr⟩
    · refine Or.inl ⟨by simp [h1, isSomeList], by simp [h2, isSomeList], ?_⟩
      intro w w' hw hw'
      rw [h1] at hw
      exact absurd hw (by simp)
    · have hvp : ValPermList v v' := by simpa [entryRelAt] using hrr
      by_cases hl : isListV v = true
      · obtain ⟨a, rfl⟩ : ∃ a, v = Val.list a := by
          cases v <;> simp [isListV] at hl
          exact ⟨_, rfl⟩
        obtain ⟨b, h2', hperm⟩ : ∃ b, lookupKey kvs' "tags" = some (.list b) ∧
            List.Perm a b := by
          rcases hvp with he | ⟨xs, xs', hx, hx', hp⟩
          · exact ⟨a, by rw [h2, ← he], List.Perm.refl _⟩
          · cases hx
            cases hx'
            exact ⟨_, h2, hp⟩
        exact Or.inr ⟨a, b, h1, h2', sortStrVals_congr hperm (tags_allStr htok h1)⟩
      · have hnl : isListV v = false := by simpa using hl
        have hvv := valPermList_eq_of_not_list hvp hnl
        refine Or.inl ⟨?_, ?_, ?_⟩
        · rw [h1]
          cases v <;> simp [isSomeList, isListV] at hnl ⊢
        · rw [h2, ← hvv]
          cases v <;> simp [isSomeList, isListV] at hnl ⊢
        · intro w w' hw hw'
          rw [h1] at hw
          rw [h2, ← hvv] at hw'
          exact (Option.some.inj hw).symm.trans (Option.some.inj hw')
  rcases hrfOut with ⟨ha1, ha2, haeq⟩ | ⟨a₁, a₂, ha1, ha2, hReq⟩
  · rcases htgOut with ⟨hb1, hb2, hbeq⟩ | ⟨b₁, b₂, hb1, hb2, hTeq⟩
    · rw [procTerm_dict_oo ha1 hb1, procTerm_dict_oo ha2 hb2]
      refine congrArg Val.dict (entriesRel_eq_resolved hrel hnd ?_)
      intro k hk v₁ v₂ hv₁ hv₂
      simp only [List.mem_cons, List.not_mem_nil, or_false] at hk
      rcases hk with rfl | rfl
      · exact haeq v₁ v₂ hv₁ hv₂
      · exact hbeq v₁ v₂ hv₁ hv₂
    · rw [procTerm_dict_ol ha1 hb1, procTerm_dict_ol ha2 hb2, ← hTeq]
      have hrel₁ := setKey_rel "tags" (Val.list (sortStrVals b₁)) hrel
      have hnd₁ := nodupStr_setKey "tags" (Val.list (sortStrVals b₁)) hnd
      refine congrArg Val.dict (entriesRel_eq_resolved hrel₁ hnd₁ ?_)
      intro k hk v₁ v₂ hv₁ hv₂
      simp only [List.mem_cons, List.not_mem_nil, or_false] at hk
      rcases hk with rfl | rfl
      · rw [lookupKey_setKey_ne _ _ (by decide)] at hv₁ hv₂
        exact haeq v₁ v₂ hv₁ hv₂
      · rw [lookupKey_setKey_self] at hv₁ hv₂
        exact (Option.some.inj hv₁).symm.trans (Option.some.inj hv₂)
  · rcases htgOut with ⟨hb1, hb2, hbeq⟩ | ⟨b₁, b₂, hb1, hb2, hTeq⟩
    · rw [procTerm_dict_lo ha1 hb1, procTerm_dict_lo ha2 hb2, ← hReq]
      have hrel₁ := setKey_rel "related_fields" (Val.list (sortStrVals a₁)) hrel
      have hnd₁ := nodupStr_setKey "related_fields" (Val.list (sortStrVals a₁)) hnd
      refine congrArg Val.dict (entriesRel_eq_resolved hrel₁ hnd₁ ?_)
      intro k hk v₁ v₂ hv₁ hv₂
      simp only [List.mem_cons, List.not_mem_nil, or_false] at hk
      rcases hk with rfl | rfl
      · rw [lookupKey_setKey_self] at hv₁ hv₂
        exact (Option.some.inj hv₁).symm.trans (Option.some.inj hv₂)
      · rw [lookupKey_setKey_ne _ _ (by decide)] at hv₁ hv₂
        exact hbeq v₁ v₂ hv₁ hv₂
    · rw [procTerm_dict_ll ha1 hb1, procTerm_dict_ll ha2 hb2, ← hReq, ← hTeq]
      have hrel₂ := setKey_rel "tags" (Val.list (sortStrVals b₁))
        (setKey_rel "related_fields" (Val.list (sortStrVals a₁)) hrel)
      have hnd₂ := nodupStr_setKey "tags" (Val.list (sortStrVals b₁))
        (nodupStr_setKey "related_fields" (Val.list (sortStrVals a₁)) hnd)
      refine congrArg Val.dict (entriesRel_eq_resolved hrel₂ hnd₂ ?_)
      intro k hk v₁ v₂ hv₁ hv₂
      simp only [List.mem_cons, List.not_mem_nil, or_false] at hk
      rcases hk with rfl | rfl
      · rw [lookupKey_setKey_ne _ _ (by decide), lookupKey_setKey_self] at hv₁ hv₂
        exact (Option.some.inj hv₁).symm.trans (Option.some.inj hv₂)
      · rw [lookupKey_setKey_self] at hv₁ hv₂
        exact (Option.some.inj hv₁).symm.trans (Option.some.inj hv₂)

theorem getStrD_setKey_ne {kvs : Entries} {k k' : String} (v : Val) (h : k ≠ k')
    (dflt : String) :
    getStrD (.dict (setKey kvs k v)) k' dflt = getStrD (.dict kvs) k' dflt := by
  simp [getStrD, Val.get?, Val.entries, lookupKey_setKey_ne kvs v h]

theorem nameKey_procEntity (e : Val) : nameKey (procEntity e) = nameKey e := by
  cases e with
  | null => rfl
  | bool b => rfl
  | int n => rfl
  | str s => rfl
  | list xs => rfl
  | dict kvs =>
    rcases htags : lookupKey kvs "tags" with _ | tv
    · rw [procEntity_dict_none htags]
      simp only [nameKey]
      rw [getStrD_setKey_ne _ (by decide)]
    · by_cases hl : isListV tv = true
      · obtain ⟨ts, rfl⟩ : ∃ ts, tv = Val.list ts := by
          cases tv <;> simp [isListV] at hl
          exact ⟨_, rfl⟩
        rw [procEntity_dict_list htags]
        simp only [nameKey]
        rw [getStrD_setKey_ne _ (by decide), getStrD_setKey_ne _ (by decide)]
      · have hnl : isListV tv = false := by simpa using hl
        rw [procEntity_dict_other htags hnl]
        simp only [nameKey]
        rw [getStrD_setKey_ne _ (by decide)]

theorem termKey_procTerm (t : Val) : termKey (procTerm t) = termKey t := by
  cases t with
  | null => rfl
  | bool b => rfl
  | int n => rfl
  | str s => rfl
  | list xs => rfl
  | dict kvs =>
    have haux : ∀ v : Val, isSomeList (some v) = false → ∀ ts : List Val, v ≠ .list ts := by
      intro v hv ts he
      subst he
      simp [isSomeList] at hv
    rcases hrf : isSomeList (lookupKey kvs "related_fields") with _ | _
    · rcases htg : isSomeList (lookupKey kvs "tags") with _ | _
      · rw [procTerm_dict_oo hrf htg]
      · obtain ⟨ts, hts⟩ : ∃ ts, lookupKey kvs "tags" = some (.list ts) := by
          rcases ho : lookupKey kvs "tags" with _ | tv
          · rw [ho] at htg
            simp [isSomeList] at htg
          · rw [ho] at htg
            cases tv <;> simp [isSomeList] at htg
            exact ⟨_, rfl⟩
        rw [procTerm_dict_ol hrf hts]
        simp only [termKey]
        rw [getStrD_setKey_ne _ (by decide)]
    · obtain ⟨a, ha⟩ : ∃ a, lookupKey kvs "related_fields" = some (.list a) := by
        rcases ho : lookupKey kvs "related_fields" with _ | tv
        · rw [ho] at hrf
          simp [isSomeList] at hrf
        · rw [ho] at hrf
          cases tv <;> simp [isSomeList] at hrf
          exact ⟨_, rfl⟩
      rcases htg : isSomeList (lookupKey kvs "tags") with _ | _
      · rw [procTerm_dict_lo ha htg]
        simp only [termKey]
        rw [getStrD_setKey_ne _ (by decide)]
      · obtain ⟨ts, hts⟩ : ∃ ts, lookupKey kvs "tags" = some (.list ts) := by
          rcases ho : lookupKey kvs "tags" with _ | tv
          · rw [ho] at htg
            simp [isSomeList] at htg
          · rw [ho] at htg
            cases tv <;> simp [isSomeList] at htg
            exact ⟨_, rfl⟩
        rw [procTerm_dict_ll ha hts]
        simp only [termKey]
        rw [getStrD_setKey_ne _ (by decide), getStrD_setKey_ne _ (by decide)]

theorem nodupKeys_map {key : Val → List String} {f : Val → Val}
    (hf : ∀ e, key (f e) = key e) :
    ∀ {xs : List Val}, nodupKeys key xs = true → nodupKeys key (xs.map f) = true
  | [], _ => rfl
  | x :: xs, h => by
    simp only [nodupKeys, Bool.and_eq_true, List.all_eq_true, List.map_cons] at h ⊢
    obtain ⟨hall, htail⟩ := h
    refine ⟨?_, nodupKeys_map hf htail⟩
    intro y hy
    rcases List.mem_map.mp hy with ⟨z, hz, rfl⟩
    rw [hf x, hf z]
    exact hall z hz

theorem map_procEntity_eq : ∀ {xs lm : List Val}, List.Forall₂ EntityPerm xs lm →
    (∀ e ∈ xs, dictKeysOk e = true ∧ tagsOk e = true ∧
      nodupKeys nameKey (fieldsOfE e) = true) →
    xs.map procEntity = lm.map procEntity
  | [], [], _, _ => rfl
  | [], _ :: _, h, _ => nomatch h
  | _ :: _, [], h, _ => nomatch h
  | x :: xs, y :: lm, h, hwf => by
    cases h with
    | cons hxy htail =>
      obtain ⟨h1, h2, h3⟩ := hwf x (by simp)
      simp only [List.map_cons]
      rw [procEntity_congr hxy h1 h2 h3,
        map_procEntity_eq htail (fun e he => hwf e (by simp [he]))]

theorem map_procTerm_eq : ∀ {xs lm : List Val}, List.Forall₂ TermPerm xs lm →
    (∀ t ∈ xs, dictKeysOk t = true ∧ rfOk t = true ∧ tagsOk t = true) →
    xs.map procTerm = lm.map procTerm
  | [], [], _, _ => rfl
  | [], _ :: _, h, _ => nomatch h
  | _ :: _, [], h, _ => nomatch h
  | x :: xs, y :: lm, h, hwf => by
    cases h with
    | cons hxy htail =>
      obtain ⟨h1, h2, h3⟩ := hwf x (by simp)
      simp only [List.map_cons]
      rw [procTerm_congr hxy h1 h2 h3,
        map_procTerm_eq htail (fun t ht => hwf t (by simp [ht]))]

theorem sort_entities_congr {xs xs' : List Val} (h : PermUpTo EntityPerm xs xs')
    (hwfl : ∀ e ∈ xs, dictKeysOk e = true ∧ tagsOk e = true ∧
      nodupKeys nameKey (fieldsOfE e) = true)
    (hnd : nodupKeys nameKey xs = true) :
    sort_entities xs = sort_entities xs' := by
  obtain ⟨lm, hfa, hperm⟩ := h
  have h1 : xs.map procEntity = lm.map procEntity := map_procEntity_eq hfa hwfl
  have h2 : List.Perm (xs.map procEntity) (xs'.map procEntity) := by
    rw [h1]
    exact hperm.map procEntity
  exact sortByKey_congr nameKey h2 (nodupKeys_map nameKey_procEntity hnd)

theorem sort_glossary_congr {xs xs' : List Val} (h : PermUpTo TermPerm xs xs')
    (hwfl : ∀ t ∈ xs, dictKeysOk t = true ∧ rfOk t = true ∧ tagsOk t = true)
    (hnd : nodupKeys termKey xs = true) :
    sort_glossary xs = sort_glossary xs' := by
  obtain ⟨lm, hfa, hperm⟩ := h
  have h1 : xs.map procTerm = lm.map procTerm := map_procTerm_eq hfa hwfl
  have h2 : List.Perm (xs.map procTerm) (xs'.map procTerm) := by
    rw [h1]
    exact hperm.map procTerm
  exact sortByKey_congr termKey h2 (nodupKeys_map termKey_procTerm hnd)

theorem sortByKey_valPerm_congr (key : Val → List String) {v v' : Val}
    (h : ValPermList v v') (hnd : nodupKeys key (Val.asList v) = true) :
    sortByKey key (Val.asList v) = sortByKey key (Val.asList v') := by
  rcases h with rfl | ⟨xs, xs', rfl, rfl, hperm⟩
  · rfl
  · exact sortByKey_congr key hperm (by simpa [Val.asList] using hnd)

/-- Order-insensitivity of compile_model under distinct sort keys: permuting
any top-level collection or sub-list (in the sense of DocPerm) leaves the
canonical form unchanged, provided the sorted collections carry pairwise
distinct sort keys and the document is well-formed. -/
theorem compile_model_perm {m m' : Val} (hperm : DocPerm m m')
    (hwf : wfCanonB m = true) (hdk : distinctKeysB m = true) :
    compile_model m' = compile_model m := by
  obtain ⟨kvs, kvs', rfl, rfl, hrel⟩ := hperm
  simp only [wfCanonB, Bool.and_eq_true] at hwf
  obtain ⟨hwfE, hwfG⟩ := hwf
  simp only [distinctKeysB, Bool.and_eq_true] at hdk
  obtain ⟨⟨⟨⟨⟨hndE, hndF⟩, hndR⟩, hndI⟩, hndRu⟩, hndG⟩ := hdk
  have hM : (lookupKey kvs' "model").getD (.dict []) =
      (lookupKey kvs "model").getD (.dict []) := by
    rcases lookup_entriesRel hrel "model" with ⟨h1, h2⟩ | ⟨v, v', h1, h2, hr⟩
    · rw [h1, h2]
    · have hv : v = v' := by
        unfold docEntryRel at hr
        rw [if_neg (by decide), if_neg (by decide), if_neg (by decide)] at hr
        exact hr
      rw [h1, h2, hv]
  have hG : (lookupKey kvs' "governance").getD (.dict []) =
      (lookupKey kvs "governance").getD (.dict []) := by
    rcases lookup_entriesRel hrel "governance" with ⟨h1, h2⟩ | ⟨v, v', h1, h2, hr⟩
    · rw [h1, h2]
    · have hv : v = v' := by
        unfold docEntryRel at hr
        rw [if_neg (by decide), if_neg (by decide), if_neg (by decide)] at hr
        exact hr
      rw [h1, h2, hv]
  have hD : (lookupKey kvs' "display").getD (.dict []) =
      (lookupKey kvs "display").getD (.dict []) := by
    rcases lookup_entriesRel hrel "display" with ⟨h1, h2⟩ | ⟨v, v', h1, h2, hr⟩
    · rw [h1, h2]
    · have hv : v = v' := by
        unfold docEntryRel at hr
        rw [if_neg (by decide), if_neg (by decide), if_neg (by decide)] at hr
        exact hr
      rw [h1, h2, hv]
  have hE : sort_entities (Val.asList ((lookupKey kvs' "entities").getD (.list []))) =
      sort_entities (Val.asList ((lookupKey kvs "entities").getD (.list []))) := by
    rcases lookup_entriesRel hrel "entities" with ⟨h1, h2⟩ | ⟨v, v', h1, h2, hr⟩
    · rw [h1, h2]
    · unfold docEntryRel at hr
      rw [if_pos rfl] at hr
      rcases hr with rfl | ⟨xs, xs', rfl, rfl, hpu⟩
      · rw [h1, h2]
      · rw [h1, h2]
        simp only [Option.getD_some, Val.asList]
        have hx : entsOf (Val.dict kvs) = xs := by
          simp [entsOf, Val.getD, Val.get?, Val.entries, h1, Val.asList]
        refine (sort_entities_congr hpu ?_ ?_).symm
        · intro e he
          have h3 := List.all_eq_true.mp (hx ▸ hwfE) e he
          have h4 := List.all_eq_true.mp (hx ▸ hndF) e he
          simp only [Bool.and_eq_true] at h3
          exact ⟨h3.1, h3.2, h4⟩
        · exact hx ▸ hndE
  have hGl : sort_glossary (Val.asList ((lookupKey kvs' "glossary").getD (.list []))) =
      sort_glossary (Val.asList ((lookupKey kvs "glossary").getD (.list []))) := by
    rcases lookup_entriesRel hrel "glossary" with ⟨h1, h2⟩ | ⟨v, v', h1, h2, hr⟩
    · rw [h1, h2]
    · unfold docEntryRel at hr
      rw [if_neg (by decide), if_pos rfl] at hr
      rcases hr with rfl | ⟨xs, xs', rfl, rfl, hpu⟩
      · rw [h1, h2]
      · rw [h1, h2]
        simp only [Option.getD_some, Val.asList]
        have hx : glosOf (Val.dict kvs) = xs := by
          simp [glosOf, Val.getD, Val.get?, Val.entries, h1, Val.asList]
        refine (sort_glossary_congr hpu ?_ ?_).symm
        · intro t ht
          have h3 := List.all_eq_true.mp (hx ▸ hwfG) t ht
          simp only [Bool.and_eq_true] at h3
          exact ⟨h3.1.1, h3.1.2, h3.2⟩
        · exact hx ▸ hndG
  have hR : sort_relationships
        (Val.asList ((lookupKey kvs' "relationships").getD (.list []))) =
      sort_relationships (Val.asList ((lookupKey kvs "relationships").getD (.list []))) := by
    rcases lookup_entriesRel hrel "relationships" with ⟨h1, h2⟩ | ⟨v, v', h1, h2, hr⟩
    · rw [h1, h2]
    · unfold docEntryRel at hr
      rw [if_neg (by decide), if_neg (by decide), if_pos (by decide)] at hr
      rw [h1, h2]
      simp only [Option.getD_some]
      have hx : relsOf (Val.dict kvs) = Val.asList v := by
        simp [relsOf, Val.getD, Val.get?, Val.entries, h1]
      exact (sortByKey_valPerm_congr relKey hr (hx ▸ hndR)).symm
  have hI : sort_indexes (Val.asList ((lookupKey kvs' "indexes").getD (.list []))) =
      sort_indexes (Val.asList ((lookupKey kvs "indexes").getD (.list []))) := by
    rcases lookup_entriesRel hrel "indexes" with ⟨h1, h2⟩ | ⟨v, v', h1, h2, hr⟩
    · rw [h1, h2]
    · unfold docEntryRel at hr
      rw [if_neg (by decide), if_neg (by decide), if_pos (by decide)] at hr
      rw [h1, h2]
      simp only [Option.getD_some]
      have hx : idxsOf (Val.dict kvs) = Val.asList v := by
        simp [idxsOf, Val.getD, Val.get?, Val.entries, h1]
      exact (sortByKey_valPerm_congr idxKey hr (hx ▸ hndI)).symm
  have hRu : sort_rules (Val.asList ((lookupKey kvs' "rules").getD (.list []))) =
      sort_rules (Val.asList ((lookupKey kvs "rules").getD (.list []))) := by
    rcases lookup_entriesRel hrel "rules" with ⟨h1, h2⟩ | ⟨v, v', h1, h2, hr⟩
    · rw [h1, h2]
    · unfold docEntryRel at hr
      rw [if_neg (by decide), if_neg (by decide), if_pos (by decide)] at hr
      rw [h1, h2]
      simp only [Option.getD_some]
      have hx : rulesOf (Val.dict kvs) = Val.asList v := by
        simp [rulesOf, Val.getD, Val.get?, Val.entries, h1]
      exact (sortByKey_valPerm_congr ruleKey hr (hx ▸ hndRu)).symm
  rw [compile_model_unfold (Val.dict kvs'), compile_model_unfold (Val.dict kvs)]
  simp only [Val.getD, Val.get?, Val.entries] at hM hG hD hE hGl hR hI hRu ⊢
  rw [hM, hG, hD, hE, hGl, hR, hI, hRu]

def c1term1 : Val := .dict [("term", .str "a"), ("description", .str "x")]

def c1term2 : Val := .dict [("term", .str "a"), ("description", .str "y")]

def c1doc : Val := .dict [("glossary", .list [c1term1, c1term2])]

def c1doc' : Val := .dict [("glossary", .list [c1term2, c1term1])]

/-- Claim C1, counterexample.  The claim asserts order-insensitivity for every
model document, but compile_model sorts with a stable sort keyed only on the
listed sort fields: permuting two glossary terms that share the same term but
differ elsewhere changes the canonical output.  c1doc' is obtained from c1doc
by permuting its glossary collection, yet the canonical forms differ. -/
theorem c1_canonicalization_counterexample :
    DocPerm c1doc c1doc' ∧ compile_model c1doc' ≠ compile_model c1doc := by
  constructor
  · refine ⟨_, _, rfl, rfl, ?_⟩
    refine List.Forall₂.cons ⟨rfl, ?_⟩ List.Forall₂.nil
    unfold docEntryRel
    rw [if_neg (by decide), if_pos rfl]
    refine Or.inr ⟨[c1term1, c1term2], [c1term2, c1term1], rfl, rfl, ?_⟩
    exact ⟨[c1term1, c1term2],
      List.Forall₂.cons (Or.inl rfl) (List.Forall₂.cons (Or.inl rfl) List.Forall₂.nil),
      List.Perm.swap c1term2 c1term1 []⟩
  · intro h
    have h2 : getStrD ((Val.asList ((compile_model c1doc').getD "glossary"
          (.list []))).headD .null) "description" "" =
        getStrD ((Val.asList ((compile_model c1doc).getD "glossary"
          (.list []))).headD .null) "description" "" := by rw [h]
    have h3 : ("y" : String) = "x" := h2
    exact absurd h3 (by decide)

/-- Claim C1 (amended).  compile_model is idempotent for every document, and
permuting the top-level collections or the sub-lists inside them yields an
identical canonical form provided the permuted collections carry pairwise
distinct sort keys (entities by name, fields by name, relationships by
(name, from, to, cardinality), indexes by (name, entity), rules by
(name, target), glossary by term) and the document is well-formed.  Without
the distinct-key condition the stable sort preserves the input order of
key-tied unequal items, refuting the unrestricted claim. -/
theorem c1_canonicalization_amended :
    (∀ m : Val, compile_model (compile_model m) = compile_model m) ∧
    (∀ m m' : Val, DocPerm m m' → wfCanonB m = true → distinctKeysB m = true →
      compile_model m' = compile_model m) :=
  ⟨compile_model_idem, fun _ _ hp hw hd => compile_model_perm hp hw hd⟩

def c1fld1 : Val := .dict [("name", .str "f1")]

def c1fld2 : Val := .dict [("name", .str "f2")]

def c1entA : Val := .dict [("name", .str "A"), ("fields", .list [c1fld2, c1fld1])]

def c1entA2 : Val := .dict [("name", .str "A"), ("fields", .list [c1fld1, c1fld2])]

def c1entB : Val := .dict [("name", .str "B")]

def c1wdoc : Val := .dict
  [("model", .dict [("name", .str "m"), ("owners", .list [.str "b", .str "a"])]),
   ("entities", .list [c1entB, c1entA])]

def c1wdoc2 : Val := .dict
  [("model", .dict [("name", .str "m"), ("owners", .list [.str "b", .str "a"])]),
   ("entities", .list [c1entA2, c1entB])]

/-- Witness for the amended claim C1: a concrete document with distinct sort
keys, and a concrete permutation of it (entities swapped and the fields of one
entity swapped), on which both amended properties are discharged. -/
theorem c1_canonicalization_witness :
    compile_model (compile_model c1wdoc) = compile_model c1wdoc ∧
    compile_model c1wdoc2 = compile_model c1wdoc := by
  have hperm : DocPerm c1wdoc c1wdoc2 := by
    refine ⟨_, _, rfl, rfl, ?_⟩
    refine List.Forall₂.cons ⟨rfl, ?_⟩ (List.Forall₂.cons ⟨rfl, ?_⟩ List.Forall₂.nil)
    · unfold docEntryRel
      rw [if_neg (by decide), if_neg (by decide), if_neg (by decide)]
    · unfold docEntryRel
      rw [if_pos rfl]
      refine Or.inr ⟨[c1entB, c1entA], [c1entA2, c1entB], rfl, rfl, ?_⟩
      refine ⟨[c1entB, c1entA2], ?_, List.Perm.swap c1entA2 c1entB []⟩
      refine List.Forall₂.cons (Or.inl rfl) (List.Forall₂.cons ?_ List.Forall₂.nil)
      refine Or.inr ⟨_, _, rfl, rfl, ?_⟩
      refine List.Forall₂.cons ⟨rfl, ?_⟩ (List.Forall₂.cons ⟨rfl, ?_⟩ List.Forall₂.nil)
      · unfold entryRelAt
        rw [if_neg (by decide)]
      · unfold entryRelAt
        rw [if_pos (by decide)]
        exact Or.inr ⟨[c1fld2, c1fld1], [c1fld1, c1fld2], rfl, rfl,
          List.Perm.swap c1fld1 c1fld2 []⟩
  exact ⟨c1_canonicalization_amended.1 c1wdoc,
    c1_canonicalization_amended.2 c1wdoc c1wdoc2 hperm (by decide) (by decide)⟩

/-- Provenance of a mutable Python object (list or dict) in the instrumented
embedding of canonical.py used for the frame claim: argument marks objects
reachable from the argument of compile_model, fresh marks objects allocated
during the call (deep copies and literals). -/
inductive Prov where
  | argument
  | fresh
  deriving DecidableEq, BEq

/-- Provenance-annotated document value.  Atoms are immutable in Python and
carry no provenance; every list and dict node carries the provenance of the
heap object it stands for. -/
inductive PVal where
  | null
  | bool (b : Bool)
  | int (n : Int)
  | str (s : String)
  | list (p : Prov) (xs : List PVal)
  | dict (p : Prov) (kvs : List (String × PVal))

abbrev PEntries := List (String × PVal)

def plookup : PEntries → String → Option PVal
  | [], _ => none
  | (k, v) :: rest, key => if k = key then some v else plookup rest key

def psetKey : PEntries → String → PVal → PEntries
  | [], key, v => [(key, v)]
  | (k, w) :: rest, key, v =>
    if k = key then (k, v) :: rest else (k, w) :: psetKey rest key v

namespace PVal

def entries : PVal → PEntries
  | .dict _ kvs => kvs
  | _ => []

def get? (v : PVal) (key : String) : Option PVal := plookup v.entries key

def getD (v : PVal) (key : String) (d : PVal) : PVal := (v.get? key).getD d

def asList : PVal → List PVal
  | .list _ xs => xs
  | _ => []

def asStr : PVal → String
  | .str s => s
  | _ => ""

end PVal

/-- Python dict item assignment, logging the provenance of the mutated heap
object.  A write to a non-dict raises in Python and mutates nothing. -/
def pdset : PVal → String → PVal → PVal × List Prov
  | .dict p kvs, key, v => (.dict p (psetKey kvs key v), [p])
  | other, _, _ => (other, [])

mutual

/-- copy.deepcopy: a structurally equal value all of whose containers are
freshly allocated. -/
def pdeepcopy : PVal → PVal
  | .null => .null
  | .bool b => .bool b
  | .int n => .int n
  | .str s => .str s
  | .list _ xs => .list .fresh (pdeepcopyL xs)
  | .dict _ kvs => .dict .fresh (pdeepcopyD kvs)

/-- deepcopy of the elements of a list object. -/
def pdeepcopyL : List PVal → List PVal
  | [] => []
  | x :: xs => pdeepcopy x :: pdeepcopyL xs

/-- deepcopy of the entries of a dict object. -/
def pdeepcopyD : PEntries → PEntries
  | [] => []
  | (k, v) :: rest => (k, pdeepcopy v) :: pdeepcopyD rest

end

mutual

/-- Marks every container of a plain value as reachable from the argument. -/
def markArg : Val → PVal
  | .null => .null
  | .bool b => .bool b
  | .int n => .int n
  | .str s => .str s
  | .list xs => .list .argument (markArgL xs)
  | .dict kvs => .dict .argument (markArgD kvs)

/-- Argument marking of list elements. -/
def markArgL : List Val → List PVal
  | [] => []
  | x :: xs => markArg x :: markArgL xs

/-- Argument marking of dict entries. -/
def markArgD : Entries → PEntries
  | [] => []
  | (k, v) :: rest => (k, markArg v) :: markArgD rest

end

def pgetStrD (v : PVal) (key : String) (dflt : String) : String :=
  match v.get? key with
  | some (.str s) => s
  | some _ => ""
  | none => dflt

def pnameKey (v : PVal) : List String := [pgetStrD v "name" ""]

def prelKey (v : PVal) : List String :=
  [pgetStrD v "name" "", pgetStrD v "from" "", pgetStrD v "to" "",
   pgetStrD v "cardinality" ""]

def pruleKey (v : PVal) : List String := [pgetStrD v "name" "", pgetStrD v "target" ""]

def pidxKey (v : PVal) : List String := [pgetStrD v "name" "", pgetStrD v "entity" ""]

def ptermKey (v : PVal) : List String := [pgetStrD v "term" ""]

def psortByKey (key : PVal → List String) (xs : List PVal) : List PVal :=
  sortLe (fun a b => keyLe (key a) (key b)) xs

def psortStrVals (xs : List PVal) : List PVal :=
  sortLe (fun a b => strLe a.asStr b.asStr) xs

/-- Instrumented _sort_fields (pure: sorted() reads, it does not mutate). -/
def psort_fields (fields : List PVal) : List PVal := psortByKey pnameKey fields

/-- Shared tail of the per-entity and per-term steps: sort the tags list in
place when present and a list, accumulating the mutation log. -/
def pprocTags (s1 : PVal × List Prov) : PVal × List Prov :=
  match s1.1.get? "tags" with
  | some (.list _ ts) =>
    ((pdset s1.1 "tags" (.list .fresh (psortStrVals ts))).1,
      s1.2 ++ (pdset s1.1 "tags" (.list .fresh (psortStrVals ts))).2)
  | _ => s1

/-- Instrumented per-entity step of _sort_entities: the deep copy is fresh and
both in-place assignments hit that fresh copy. -/
def pprocEntity (e : PVal) : PVal × List Prov :=
  pprocTags (pdset (pdeepcopy e) "fields"
    (.list .fresh (psort_fields (PVal.asList ((pdeepcopy e).getD "fields"
      (.list .fresh []))))))

/-- Instrumented _sort_entities. -/
def psort_entities (entities : List PVal) : List PVal × List Prov :=
  ((psortByKey pnameKey ((entities.map pprocEntity).map Prod.fst)),
    ((entities.map pprocEntity).map Prod.snd).flatten)

/-- Instrumented _sort_relationships: no copy and no mutation; the element
dicts of the result alias the input elements. -/
def psort_relationships (rels : List PVal) : List PVal := psortByKey prelKey rels

/-- Instrumented _sort_rules: no copy and no mutation. -/
def psort_rules (rules : List PVal) : List PVal := psortByKey pruleKey rules

/-- Instrumented _sort_indexes: elements are deep-copied, nothing mutated. -/
def psort_indexes (idxs : List PVal) : List PVal :=
  psortByKey pidxKey (idxs.map pdeepcopy)

/-- First half of the per-term step of _sort_glossary: sort related_fields in
place when present and a list. -/
def pprocRf (c : PVal) : PVal × List Prov :=
  match c.get? "related_fields" with
  | some (.list _ rf) => pdset c "related_fields" (.list .fresh (psortStrVals rf))
  | _ => (c, [])

/-- Instrumented per-term step of _sort_glossary. -/
def pprocTerm (t : PVal) : PVal × List Prov :=
  pprocTags (pprocRf (pdeepcopy t))

/-- Instrumented _sort_glossary. -/
def psort_glossary (glossary : List PVal) : List PVal × List Prov :=
  ((psortByKey ptermKey ((glossary.map pprocTerm).map Prod.fst)),
    ((glossary.map pprocTerm).map Prod.snd).flatten)

/-- Dict comprehension over sorted keys: allocates a fresh dict, values
aliased. -/
def prekeyAsc (kvs : PEntries) : PEntries :=
  (sortLe strLe (kvs.map Prod.fst)).map (fun k => (k, (plookup kvs k).getD .null))

/-- Instrumented classification re-keying of the governance deep copy. -/
def pgovCls (gov : PVal) : PVal × List Prov :=
  match gov.get? "classification" with
  | some (.dict _ kvs) => pdset gov "classification" (.dict .fresh (prekeyAsc kvs))
  | _ => (gov, [])

/-- Instrumented stewards re-keying, applied after the classification step. -/
def pgovStw (g1 : PVal × List Prov) : PVal × List Prov :=
  match g1.1.get? "stewards" with
  | some (.dict _ kvs) =>
    ((pdset g1.1 "stewards" (.dict .fresh (prekeyAsc kvs))).1,
      g1.2 ++ (pdset g1.1 "stewards" (.dict .fresh (prekeyAsc kvs))).2)
  | _ => g1

/-- Instrumented governance handling of compile_model. -/
def pgovOut (m : PVal) : PVal × List Prov :=
  pgovStw (pgovCls (pdeepcopy (m.getD "governance" (.dict .fresh []))))

/-- The canonical dict literal of compile_model (a fresh object). -/
def pcanonical0 (m : PVal) : PVal :=
  .dict .fresh
    [("model", pdeepcopy (m.getD "model" (.dict .fresh []))),
     ("entities",
       .list .fresh (psort_entities (PVal.asList (m.getD "entities"
         (.list .fresh [])))).1),
     ("relationships",
       .list .fresh (psort_relationships (PVal.asList (m.getD "relationships"
         (.list .fresh []))))),
     ("indexes",
       .list .fresh (psort_indexes (PVal.asList (m.getD "indexes"
         (.list .fresh []))))),
     ("rules",
       .list .fresh (psort_rules (PVal.asList (m.getD "rules" (.list .fresh [])))))]

/-- canonical governance assignment. -/
def pstage1 (m : PVal) : PVal × List Prov :=
  pdset (pcanonical0 m) "governance" (pgovOut m).1

/-- canonical glossary assignment. -/
def pstage2 (m : PVal) : PVal × List Prov :=
  pdset (pstage1 m).1 "glossary"
    (.list .fresh (psort_glossary (PVal.asList (m.getD "glossary"
      (.list .fresh [])))).1)

/-- canonical display assignment. -/
def pstage3 (m : PVal) : PVal × List Prov :=
  pdset (pstage2 m).1 "display" (pdeepcopy (m.getD "display" (.dict .fresh [])))

/-- The model block referenced by the canonical dict (the deep copy). -/
def pmodelAt (m : PVal) : PVal := (pstage3 m).1.getD "model" (.dict .fresh [])

/-- The in-place owners sort applied to the shared model block. -/
def pownersSet (m : PVal) : PVal × List Prov :=
  match (pmodelAt m).get? "owners" with
  | some (.list _ ow) => pdset (pmodelAt m) "owners" (.list .fresh (psortStrVals ow))
  | _ => (pmodelAt m, [])

/-- Instrumented compile_model, mirroring canonical.py statement by statement
and logging the provenance of every heap object mutated by a dict item
assignment.  The final in-place update of canonical.model.owners mutates the
deep-copied model block that the canonical dict references; it is logged as a
write to that (fresh) object, and the aliasing is reflected by rebuilding the
model entry of the result with the updated block. -/
def compile_modelProv (m : PVal) : PVal × List Prov :=
  (match (pstage3 m).1 with
    | .dict p kvs => .dict p (psetKey kvs "model" (pownersSet m).1)
    | other => other,
   (psort_entities (PVal.asList (m.getD "entities" (.list .fresh [])))).2 ++
   (pgovOut m).2 ++ (pstage1 m).2 ++
   (psort_glossary (PVal.asList (m.getD "glossary" (.list .fresh [])))).2 ++
   (pstage2 m).2 ++ (pstage3 m).2 ++ (pownersSet m).2)

/-- A value whose root heap object, when it is a dict, was allocated during
the call. -/
def freshRoot (v : PVal) : Prop :=
  ∀ p kvs, v = PVal.dict p kvs → p = Prov.fresh

theorem freshRoot_pdeepcopy (e : PVal) : freshRoot (pdeepcopy e) := by
  intro p kvs h
  cases e <;> simp [pdeepcopy] at h
  exact h.1.symm

theorem pdset_log_fresh {v : PVal} (hv : freshRoot v) (k : String) (x : PVal) :
    ∀ p ∈ (pdset v k x).2, p = Prov.fresh := by
  intro p hp
  cases v with
  | dict pp kvs =>
    simp [pdset] at hp
    exact hp ▸ hv pp kvs rfl
  | null => simp [pdset] at hp
  | bool b => simp [pdset] at hp
  | int n => simp [pdset] at hp
  | str s => simp [pdset] at hp
  | list pp xs => simp [pdset] at hp

theorem freshRoot_pdset {v : PVal} (hv : freshRoot v) (k : String) (x : PVal) :
    freshRoot (pdset v k x).1 := by
  intro p kvs h
  cases v with
  | dict pp kvs₀ =>
    simp [pdset] at h
    exact h.1 ▸ hv pp kvs₀ rfl
  | null => exact hv p kvs h
  | bool b => exact hv p kvs h
  | int n => exact hv p kvs h
  | str s => exact hv p kvs h
  | list pp xs => exact hv p kvs h

theorem pprocTags_log {s1 : PVal × List Prov}
    (h1 : ∀ p ∈ s1.2, p = Prov.fresh) (hfr : freshRoot s1.1) :
    ∀ p ∈ (pprocTags s1).2, p = Prov.fresh := by
  unfold pprocTags
  rcases hm : s1.1.get? "tags" with _ | tv
  · simp only [hm]
    exact h1
  · cases tv with
    | list pp ts =>
      simp only [hm]
      intro p hp
      rcases List.mem_append.mp hp with hp | hp
      · exact h1 p hp
      · exact pdset_log_fresh hfr _ _ p hp
    | null => simp only [hm]; exact h1
    | bool b => simp only [hm]; exact h1
    | int n => simp only [hm]; exact h1
    | str s => simp only [hm]; exact h1
    | dict pp kvs => simp only [hm]; exact h1

theorem pprocEntity_log (e : PVal) : ∀ p ∈ (pprocEntity e).2, p = Prov.fresh := by
  unfold pprocEntity
  exact pprocTags_log (pdset_log_fresh (freshRoot_pdeepcopy e) _ _)
    (freshRoot_pdset (freshRoot_pdeepcopy e) _ _)

theorem pprocRf_log {c : PVal} (hfr : freshRoot c) :
    (∀ p ∈ (pprocRf c).2, p = Prov.fresh) ∧ freshRoot (pprocRf c).1 := by
  unfold pprocRf
  rcases hm : c.get? "related_fields" with _ | tv
  · simp only [hm]
    exact ⟨by intro p hp; simp at hp, hfr⟩
  · cases tv with
    | list pp xs =>
      simp only [hm]
      exact ⟨pdset_log_fresh hfr _ _, freshRoot_pdset hfr _ _⟩
    | null => simp only [hm]; exact ⟨by intro p hp; simp at hp, hfr⟩
    | bool b => simp only [hm]; exact ⟨by intro p hp; simp at hp, hfr⟩
    | int n => simp only [hm]; exact ⟨by intro p hp; simp at hp, hfr⟩
    | str s => simp only [hm]; exact ⟨by intro p hp; simp at hp, hfr⟩
    | dict pp kvs => simp only [hm]; exact ⟨by intro p hp; simp at hp, hfr⟩

theorem pprocTerm_log (t : PVal) : ∀ p ∈ (pprocTerm t).2, p = Prov.fresh := by
  unfold pprocTerm
  obtain ⟨hl, hf⟩ := pprocRf_log (freshRoot_pdeepcopy t)
  exact pprocTags_log hl hf

theorem psort_entities_log (xs : List PVal) :
    ∀ p ∈ (psort_entities xs).2, p = Prov.fresh := by
  intro p hp
  simp only [psort_entities] at hp
  rcases List.mem_flatten.mp hp with ⟨l, hl, hpl⟩
  rcases List.mem_map.mp hl with ⟨pr, hpr, rfl⟩
  rcases List.mem_map.mp hpr with ⟨e, _, rfl⟩
  exact pprocEntity_log e p hpl

theorem psort_glossary_log (xs : List PVal) :
    ∀ p ∈ (psort_glossary xs).2, p = Prov.fresh := by
  intro p hp
  simp only [psort_glossary] at hp
  rcases List.mem_flatten.mp hp with ⟨l, hl, hpl⟩
  rcases List.mem_map.mp hl with ⟨pr, hpr, rfl⟩
  rcases List.mem_map.mp hpr with ⟨t, _, rfl⟩
  exact pprocTerm_log t p hpl

theorem pgovCls_log {gov : PVal} (hfr : freshRoot gov) :
    (∀ p ∈ (pgovCls gov).2, p = Prov.fresh) ∧ freshRoot (pgovCls gov).1 := by
  unfold pgovCls
  rcases hm : gov.get? "classification" with _ | tv
  · simp only [hm]
    exact ⟨by intro p hp; simp at hp, hfr⟩
  · cases tv with
    | dict pp kvs =>
      simp only [hm]
      exact ⟨pdset_log_fresh hfr _ _, freshRoot_pdset hfr _ _⟩
    | null => simp only [hm]; exact ⟨by intro p hp; simp at hp, hfr⟩
    | bool b => simp only [hm]; exact ⟨by intro p hp; simp at hp, hfr⟩
    | int n => simp only [hm]; exact ⟨by intro p hp; simp at hp, hfr⟩
    | str s => simp only [hm]; exact ⟨by intro p hp; simp at hp, hfr⟩
    | list pp xs => simp only [hm]; exact ⟨by intro p hp; simp at hp, hfr⟩

theorem pgovStw_log {g1 : PVal × List Prov}
    (h1 : ∀ p ∈ g1.2, p = Prov.fresh) (hfr : freshRoot g1.1) :
    ∀ p ∈ (pgovStw g1).2, p = Prov.fresh := by
  unfold pgovStw
  rcases hm : g1.1.get? "stewards" with _ | tv
  · simp only [hm]
    exact h1
  · cases tv with
    | dict pp kvs =>
      simp only [hm]
      intro p hp
      rcases List.mem_append.mp hp with hp | hp
      · exact h1 p hp
      · exact pdset_log_fresh hfr _ _ p hp
    | null => simp only [hm]; exact h1
    | bool b => simp only [hm]; exact h1
    | int n => simp only [hm]; exact h1
    | str s => simp only [hm]; exact h1
    | list pp xs => simp only [hm]; exact h1

theorem pgovOut_log (m : PVal) : ∀ p ∈ (pgovOut m).2, p = Prov.fresh := by
  unfold pgovOut
  obtain ⟨hl, hf⟩ := pgovCls_log (freshRoot_pdeepcopy (m.getD "governance" (.dict .fresh [])))
  exact pgovStw_log hl hf

theorem plookup_psetKey_ne : ∀ (kvs : PEntries) {k k₁ : String} (v : PVal), k ≠ k₁ →
    plookup (psetKey kvs k v) k₁ = plookup kvs k₁
  | [], k, k₁, v, h => by simp [psetKey, plookup, h]
  | (k₀, w) :: rest, k, k₁, v, h => by
    by_cases h₀ : k₀ = k
    · subst h₀
      simp [psetKey, plookup, h]
    · simp only [psetKey, if_neg h₀]
      by_cases h₁ : k₀ = k₁
      · simp [plookup, h₁]
      · simp [plookup, h₁, plookup_psetKey_ne rest v h]

theorem freshRoot_pcanonical0 (m : PVal) : freshRoot (pcanonical0 m) := by
  intro p kvs h
  simp [pcanonical0] at h
  exact h.1.symm

theorem pstage1_log (m : PVal) : ∀ p ∈ (pstage1 m).2, p = Prov.fresh :=
  pdset_log_fresh (freshRoot_pcanonical0 m) _ _

theorem freshRoot_pstage1 (m : PVal) : freshRoot (pstage1 m).1 :=
  freshRoot_pdset (freshRoot_pcanonical0 m) _ _

theorem pstage2_log (m : PVal) : ∀ p ∈ (pstage2 m).2, p = Prov.fresh :=
  pdset_log_fresh (freshRoot_pstage1 m) _ _

theorem freshRoot_pstage2 (m : PVal) : freshRoot (pstage2 m).1 :=
  freshRoot_pdset (freshRoot_pstage1 m) _ _

theorem pstage3_log (m : PVal) : ∀ p ∈ (pstage3 m).2, p = Prov.fresh :=
  pdset_log_fresh (freshRoot_pstage2 m) _ _

theorem freshRoot_pstage3 (m : PVal) : freshRoot (pstage3 m).1 :=
  freshRoot_pdset (freshRoot_pstage2 m) _ _

theorem pmodelAt_eq (m : PVal) :
    pmodelAt m = pdeepcopy (m.getD "model" (.dict .fresh [])) := by
  unfold pmodelAt pstage3 pstage2 pstage1
  simp only [pcanonical0, pdset]
  simp only [PVal.getD, PVal.get?, PVal.entries]
  rw [plookup_psetKey_ne _ _ (by decide), plookup_psetKey_ne _ _ (by decide),
    plookup_psetKey_ne _ _ (by decide)]
  simp [plookup]

theorem pownersSet_log (m : PVal) : ∀ p ∈ (pownersSet m).2, p = Prov.fresh := by
  have hfr : freshRoot (pmodelAt m) := by
    rw [pmodelAt_eq]
    exact freshRoot_pdeepcopy _
  unfold pownersSet
  rcases hm : (pmodelAt m).get? "owners" with _ | tv
  · simp only [hm]
    intro p hp
    simp at hp
  · cases tv with
    | list pp xs =>
      simp only [hm]
      exact pdset_log_fresh hfr _ _
    | null => simp only [hm]; intro p hp; simp at hp
    | bool b => simp only [hm]; intro p hp; simp at hp
    | int n => simp only [hm]; intro p hp; simp at hp
    | str s => simp only [hm]; intro p hp; simp at hp
    | dict pp kvs => simp only [hm]; intro p hp; simp at hp

theorem compile_modelProv_log (m : PVal) :
    ∀ p ∈ (compile_modelProv m).2, p = Prov.fresh := by
  intro p hp
  simp only [compile_modelProv, List.mem_append] at hp
  rcases hp with ((((((hp | hp) | hp) | hp) | hp) | hp) | hp)
  · exact psort_entities_log _ p hp
  · exact pgovOut_log m p hp
  · exact pstage1_log m p hp
  · exact psort_glossary_log _ p hp
  · exact pstage2_log m p hp
  · exact pstage3_log m p hp
  · exact pownersSet_log m p hp

/-- Claim C9.  compile_model never mutates its argument: in the instrumented
embedding compile_modelProv, which mirrors canonical.py statement by statement
and logs the provenance of the heap object targeted by every dict item
assignment, running the function on a document all of whose containers are
marked as reachable from the argument produces a mutation log containing only
fresh (call-allocated) targets.  Hence no write ever hits an object reachable
from the argument, so after the call the argument is deep-equal to its value
before the call. -/
theorem c9_compile_model_never_mutates_argument :
    ∀ m : Val, ((compile_modelProv (markArg m)).2).all (fun p => p == Prov.fresh) = true := by
  intro m
  rw [List.all_eq_true]
  intro p hp
  have h := compile_modelProv_log (markArg m) p hp
  subst h
  rfl

/-- Deep structural equality of document values (Python ==), used by the
differ to detect changed items. -/
def Val.beq : Val → Val → Bool
  | .null, .null => true
  | .bool a, .bool b => a == b
  | .int a, .int b => a == b
  | .str a, .str b => a == b
  | .list [], .list [] => true
  | .list (x :: xs), .list (y :: ys) => Val.beq x y && Val.beq (.list xs) (.list ys)
  | .dict [], .dict [] => true
  | .dict ((k, v) :: xs), .dict ((l, w) :: ys) =>
    k == l && Val.beq v w && Val.beq (.dict xs) (.dict ys)
  | _, _ => false

theorem Val.beq_refl : ∀ v : Val, Val.beq v v = true
  | .null => by simp [Val.beq]
  | .bool b => by simp [Val.beq]
  | .int n => by simp [Val.beq]
  | .str s => by simp [Val.beq]
  | .list [] => by simp [Val.beq]
  | .list (x :: xs) => by
    simp only [Val.beq, Bool.and_eq_true]
    exact ⟨Val.beq_refl x, Val.beq_refl (.list xs)⟩
  | .dict [] => by simp [Val.beq]
  | .dict ((k, v) :: xs) => by
    simp only [Val.beq, Bool.and_eq_true]
    exact ⟨⟨by simp, Val.beq_refl v⟩, Val.beq_refl (.dict xs)⟩

def entNames (c : Val) : List String := (entsOf c).map fun e => getStrD e "name" ""

def relNames (c : Val) : List String := (relsOf c).map fun r => getStrD r "name" ""

def idxNames (c : Val) : List String := (idxsOf c).map fun i => getStrD i "name" ""

def entByName (c : Val) (n : String) : Option Val :=
  (entsOf c).find? fun e => getStrD e "name" "" == n

def fieldNames (e : Val) : List String := (fieldsOfE e).map fun f => getStrD f "name" ""

def fieldByName (e : Val) (n : String) : Option Val :=
  (fieldsOfE e).find? fun f => getStrD f "name" "" == n

def nullableOf (f : Val) : Bool :=
  match f.get? "nullable" with
  | some (.bool b) => b
  | _ => true

def isUniqueIdx (i : Val) : Bool :=
  match i.get? "unique" with
  | some (.bool b) => b
  | _ => false

/-- Keys present only in the new side. -/
def addedNames (old new : List String) : List String :=
  new.filter fun n => !(old.contains n)

/-- Keys present only in the old side. -/
def removedNames (old new : List String) : List String :=
  old.filter fun n => !(new.contains n)

/-- Keys present in both sides. -/
def commonNames (old new : List String) : List String :=
  old.filter fun n => new.contains n

/-- Entity names present in both canonical documents whose canonical
sub-structure differs (deep structural inequality). -/
def changedEntityNames (co cn : Val) : List String :=
  (commonNames (entNames co) (entNames cn)).filter fun n =>
    !(Val.beq ((entByName co n).getD .null) ((entByName cn n).getD .null))

/-- Modelled from the spec: field-granularity breaking conditions of the
differ (dm_core.diffing is not under src).  For a changed entity: removing a
field, changing the declared type of a field, and tightening a field from
nullable to non-nullable are breaking. -/
def entityFieldBreaking (ename : String) (eo en : Val) : List String :=
  (removedNames (fieldNames eo) (fieldNames en)).map
    (fun f => "Removed field " ++ f ++ " from entity " ++ ename) ++
  ((commonNames (fieldNames eo) (fieldNames en)).filter fun f =>
      !(Val.beq (((fieldByName eo f).getD .null).getD "type" .null)
        (((fieldByName en f).getD .null).getD "type" .null))).map
    (fun f => "Changed type of field " ++ f ++ " in entity " ++ ename) ++
  ((commonNames (fieldNames eo) (fieldNames en)).filter fun f =>
      nullableOf ((fieldByName eo f).getD .null) &&
      !(nullableOf ((fieldByName en f).getD .null))).map
    (fun f => "Field " ++ f ++ " in entity " ++ ename ++ " is no longer nullable")

/-- Modelled from the spec: the breaking-change list of the differ over two
canonical documents: removed entities, field-level breaks of changed entities,
removed relationships, and removed uniqueness-backing indexes. -/
def breakingOf (co cn : Val) : List String :=
  (removedNames (entNames co) (entNames cn)).map
    (fun n => "Removed entity " ++ n) ++
  (changedEntityNames co cn).flatMap
    (fun n => entityFieldBreaking n ((entByName co n).getD .null)
      ((entByName cn n).getD .null)) ++
  (removedNames (relNames co) (relNames cn)).map
    (fun n => "Removed relationship " ++ n) ++
  ((idxsOf co).filter fun i =>
      isUniqueIdx i && !((idxNames cn).contains (getStrD i "name" ""))).map
    (fun i => "Removed unique index " ++ getStrD i "name" "")

/-- Summary block of a diff report. -/
structure DiffSummary where
  added_entities : Nat
  removed_entities : Nat
  changed_entities : Nat
  added_relationships : Nat
  removed_relationships : Nat
  breaking_change_count : Nat
  deriving DecidableEq

/-- Diff report of the semantic differ. -/
structure DiffReport where
  summary : DiffSummary
  breaking_changes : List String
  has_breaking_changes : Bool
  deriving DecidableEq

/-- Modelled from the spec: semantic_diff (dm_core.diffing is not under src;
only its callers are).  Both documents are first passed through the
canonicalizer compile_model so that diffs never reflect mere reordering;
entities and relationships are compared by name; changed means deep structural
inequality of the canonical sub-structure; the breaking-change taxonomy and
the report shape follow sections 4.3, 6 and 8 of the spec. -/
def semantic_diff (oldM newM : Val) : DiffReport :=
  let co := compile_model oldM
  let cn := compile_model newM
  { summary :=
      { added_entities := (addedNames (entNames co) (entNames cn)).length
        removed_entities := (removedNames (entNames co) (entNames cn)).length
        changed_entities := (changedEntityNames co cn).length
        added_relationships := (addedNames (relNames co) (relNames cn)).length
        removed_relationships := (removedNames (relNames co) (relNames cn)).length
        breaking_change_count := (breakingOf co cn).length }
    breaking_changes := breakingOf co cn
    has_breaking_changes := !(breakingOf co cn).isEmpty }

theorem contains_of_mem : ∀ {l : List String} {a : String}, a ∈ l → l.contains a = true
  | [], _, h => absurd h (by simp)
  | x :: xs, a, h => by
    rcases List.mem_cons.mp h with rfl | h
    · simp [List.contains_cons]
    · rw [List.contains_cons, contains_of_mem h]
      simp

theorem filter_eq_nil_of_false {α : Type} {p : α → Bool} :
    ∀ {l : List α}, (∀ a ∈ l, p a = false) → l.filter p = []
  | [], _ => rfl
  | x :: xs, h => by
    simp only [List.filter_cons, h x (by simp)]
    exact filter_eq_nil_of_false fun a ha => h a (by simp [ha])

theorem addedNames_self (l : List String) : addedNames l l = [] :=
  filter_eq_nil_of_false fun a ha => by
    show (!(l.contains a)) = false
    rw [contains_of_mem ha]
    rfl

theorem removedNames_self (l : List String) : removedNames l l = [] :=
  filter_eq_nil_of_false fun a ha => by
    show (!(l.contains a)) = false
    rw [contains_of_mem ha]
    rfl

theorem changedEntityNames_self (c : Val) : changedEntityNames c c = [] :=
  filter_eq_nil_of_false fun a _ => by simp [Val.beq_refl]

theorem breakingOf_self (c : Val) : breakingOf c c = [] := by
  unfold breakingOf
  rw [removedNames_self, removedNames_self, changedEntityNames_self]
  simp only [List.map_nil, List.flatMap_nil, List.nil_append, List.append_nil]
  refine List.map_eq_nil_iff.mpr (filter_eq_nil_of_false ?_)
  intro i hi
  have hm : getStrD i "name" "" ∈ idxNames c :=
    List.mem_map.mpr ⟨i, hi, rfl⟩
  show (isUniqueIdx i && !((idxNames c).contains (getStrD i "name" ""))) = false
  rw [contains_of_mem hm]
  simp

/-- Claim C8.  Diffing a model document against an unmodified copy of itself
yields all-zero summary counts and no breaking changes. -/
theorem c8_semantic_diff_self_zero (m : Val) :
    (semantic_diff m m).summary = ⟨0, 0, 0, 0, 0, 0⟩ ∧
    (semantic_diff m m).has_breaking_changes = false := by
  unfold semantic_diff
  simp [addedNames_self, removedNames_self, changedEntityNames_self, breakingOf_self]

/-!  ## Resolver (resolver.py)

Filesystem paths are modelled as lists of components (an absolute path is
its component list).  The filesystem itself is an explicit finite map from
file paths to load outcomes: `LoadRes.ok d` means the loader parses the file
to document `d`, `LoadRes.err msg` means the loader raises; a path missing
from the map also raises (no such file).  Directories are implicit: a path
`d` is a directory when some file lives strictly below it.  -/

/-- Absolute filesystem path as a list of components. -/
abbrev PathV := List String

/-- Render a component-list path the way str(Path) would (each component
preceded by a slash). -/
def joinPath : PathV → String
  | [] => ""
  | c :: rest => "/" ++ c ++ joinPath rest

/-- Outcome of attempting to load one file. -/
inductive LoadRes where
  | ok (d : Val)
  | err (msg : String)

/-- Explicit filesystem: a finite map from file paths to load outcomes. -/
structure FSys where
  files : List (PathV × LoadRes)

/-- Path.exists for a file path. -/
def fileExists (fs : FSys) (p : PathV) : Bool :=
  fs.files.any fun f => f.1 == p

/-- Path.is_dir: some file lives strictly below the path. -/
def isDirV (fs : FSys) (d : PathV) : Bool :=
  fs.files.any fun f => d.isPrefixOf f.1 && decide (d.length < f.1.length)

/-- Modelled from the spec: dm_core.loader.load_yaml_model parses a file to a
generic nested mapping or raises; it is not under src.  Raising is modelled
as Except.error carrying the exception text. -/
def load_yaml_model (fs : FSys) (p : PathV) : Except String Val :=
  match fs.files.find? (fun f => f.1 == p) with
  | some (_, .ok d) => Except.ok d
  | some (_, .err m) => Except.error m
  | none => Except.error ("No such file: " ++ joinPath p)

/-- Names of the immediate children of directory d (files or directories),
before sorting, deduplicated. -/
def childNamesAux (d : PathV) : List (PathV × LoadRes) → List String
  | [] => []
  | f :: rest =>
    let tail := childNamesAux d rest
    if d.isPrefixOf f.1 && decide (d.length < f.1.length) then
      match f.1.drop d.length with
      | c :: _ => if tail.contains c then tail else c :: tail
      | [] => tail
    else tail

/-- sorted(search_dir.iterdir()) projected to child names: the immediate
children of d in ascending lexicographic order (names are unique, so the
sort order is fully determined). -/
def childNames (fs : FSys) (d : PathV) : List String :=
  sortLe strLe (childNamesAux d fs.files)

/-- Python str.startswith(".") on the first character. -/
def dotFirst (s : String) : Bool :=
  match s.data with
  | c :: _ => c == Char.ofNat 46
  | [] => false

/-- Inner candidate loop of _find_model_file: first existing candidate file
inside dir wins. -/
def firstCand (fs : FSys) (dir : PathV) : List String → Option PathV
  | [] => none
  | c :: rest =>
    if fileExists fs (dir ++ [c]) then some (dir ++ [c]) else firstCand fs dir rest

/-- Subdirectory sweep of _find_model_file: for each non-hidden immediate
subdirectory of d (in the given order), try the candidates. -/
def scanSubs (fs : FSys) (d : PathV) (cands : List String) : List String → Option PathV
  | [] => none
  | c :: rest =>
    if isDirV fs (d ++ [c]) && !(dotFirst c) then
      match firstCand fs (d ++ [c]) cands with
      | some p => some p
      | none => scanSubs fs d cands rest
    else scanSubs fs d cands rest

/-- resolver.py _find_model_file: for each search dir in order, try the two
candidate filenames at top level, then (if the dir exists) inside each of
its sorted non-hidden immediate subdirectories, before moving to the next
search dir. -/
def find_model_file (fs : FSys) (model_name : String) : List PathV → Option PathV
  | [] => none
  | d :: rest =>
    let cands := [model_name ++ ".model.yaml", model_name ++ ".model.yml"]
    match firstCand fs d cands with
    | some p => some p
    | none =>
      if isDirV fs d then
        match scanSubs fs d cands (childNames fs d) with
        | some p => some p
        | none => find_model_file fs model_name rest
      else find_model_file fs model_name rest

/-- Truthiness of imp.get("path") as Python evaluates it. -/
def pathTruthy (imp : Val) : Bool :=
  match imp.get? "path" with
  | some .null => false
  | some (.bool b) => b
  | some (.int n) => !(n == 0)
  | some (.str s) => !(s == "")
  | some (.list xs) => !xs.isEmpty
  | some (.dict kvs) => !kvs.isEmpty
  | none => false

/-- Splitting a relative path string on slashes into components (Path join
semantics for root_dir / imp["path"]). -/
def splitSlashAux : List Char → List Char → PathV
  | [], acc => [String.mk acc.reverse]
  | c :: cs, acc =>
    if c == Char.ofNat 47 then String.mk acc.reverse :: splitSlashAux cs []
    else splitSlashAux cs (c :: acc)

def splitSlash (s : String) : PathV := splitSlashAux s.data []

/-- resolver.py _resolve_import_path.  When imp carries a truthy path it is
joined onto the root directory and must exist; otherwise the model name is
searched in the root directory followed by the caller search dirs. -/
def resolve_import_path (fs : FSys) (imp : Val) (root_dir : PathV)
    (search_dirs : List PathV) : Option PathV :=
  if pathTruthy imp then
    let candidate := root_dir ++ splitSlash (getStrD imp "path" "")
    if fileExists fs candidate then some candidate else none
  else
    let model_name := getStrD imp "model" ""
    if model_name == "" then none
    else find_model_file fs model_name (root_dir :: search_dirs)

/-- Modelled from the spec (section 6): the Issue record shared by validation
and resolution; dm_core.issues is not under src. -/
structure Issue where
  severity : String
  code : String
  message : String
  path : String
  deriving DecidableEq

/-- Single-quote character as a string, for issue messages. -/
def sq : String := String.mk [Char.ofNat 39]

def invalidImportIssue : Issue :=
  ⟨"error", "INVALID_IMPORT",
   "Import entry missing " ++ sq ++ "model" ++ sq ++ " field.", "/model/imports"⟩

def importNotFoundIssue (name : String) : Issue :=
  ⟨"error", "IMPORT_NOT_FOUND",
   "Cannot find model file for import " ++ sq ++ name ++ sq ++ ".", "/model/imports"⟩

def importLoadFailedIssue (name msg : String) : Issue :=
  ⟨"error", "IMPORT_LOAD_FAILED",
   "Failed to load imported model " ++ sq ++ name ++ sq ++ ": " ++ msg,
   "/model/imports"⟩

def nameMismatchIssue (req actual : String) : Issue :=
  ⟨"warn", "IMPORT_NAME_MISMATCH",
   "Import references " ++ sq ++ req ++ sq ++ " but file declares model.name=" ++
     sq ++ actual ++ sq ++ ".", "/model/imports"⟩

def depthIssue (maxDepth : Nat) : Issue :=
  ⟨"error", "IMPORT_DEPTH_EXCEEDED",
   "Import depth exceeded " ++ toString maxDepth ++ ". Possible circular dependency.",
   "/model/imports"⟩

def entityNotFoundIssue (aliasN req impName : String) : Issue :=
  ⟨"error", "IMPORT_ENTITY_NOT_FOUND",
   "Import " ++ sq ++ aliasN ++ sq ++ " requests entity " ++ sq ++ req ++ sq ++
     " which does not exist in " ++ sq ++ impName ++ sq ++ ".", "/model/imports"⟩

def circularIssue : Issue :=
  ⟨"error", "CIRCULAR_IMPORT",
   "Circular import detected in model dependency graph.", "/model/imports"⟩

def rootLoadFailedIssue (msg : String) : Issue :=
  ⟨"error", "ROOT_LOAD_FAILED", "Failed to load root model: " ++ msg, "/"⟩

def dupEntityIssue (ename owner modelName aliasN : String) : Issue :=
  ⟨"warn", "DUPLICATE_CROSS_MODEL_ENTITY",
   "Entity " ++ sq ++ ename ++ sq ++ " exists in both " ++ sq ++ owner ++ sq ++
     " and " ++ sq ++ modelName ++ sq ++ ". Use alias " ++ sq ++ aliasN ++ sq ++
     " to disambiguate.", "/model/imports"⟩

/-- Generic string-keyed insertion-ordered mapping lookup (first occurrence),
mirroring Python dict access. -/
def aget {α : Type} : List (String × α) → String → Option α
  | [], _ => none
  | (k, v) :: rest, key => if k = key then some v else aget rest key

/-- Python dict assignment: replace in place on the first occurrence,
otherwise append. -/
def aset {α : Type} : List (String × α) → String → α → List (String × α)
  | [], key, v => [(key, v)]
  | (k, w) :: rest, key, v =>
    if k = key then (k, v) :: rest else (k, w) :: aset rest key v

/-- Python key-membership test on a dict. -/
def ahas {α : Type} (l : List (String × α)) (key : String) : Bool :=
  (aget l key).isSome

/-- resolver.py ResolvedModel: the mutable result object, as a record. -/
structure ResolvedModel where
  root_model : Val
  imported_models : List (String × Val)
  import_graph : List (String × List String)
  file_map : List (String × String)
  issues : List Issue

def emptyResolved : ResolvedModel := ⟨.dict [], [], [], [], []⟩

/-- Instrumentation: one event per call of the loader made during
resolution, recording whether it was the root load or an import load, the
path read, and whether loading succeeded. -/
inductive LoadEv where
  | root (p : PathV) (ok : Bool)
  | imp (name : String) (p : PathV) (ok : Bool)
  deriving DecidableEq

/-- Resolution-in-progress state: the loaded_models cache, the result object
and the instrumentation log. -/
structure RState where
  loaded : List (String × Val)
  res : ResolvedModel
  log : List LoadEv

def pushIssue (st : RState) (i : Issue) : RState :=
  { st with res := { st.res with issues := st.res.issues ++ [i] } }

/-- Lines 411-429 of resolver.py: apply the entity filter (when the import
carries one) and register the imported model under its alias.  filt is the
entities filter when it is truthy (a nonempty list); model_data the parsed
model being registered. -/
def applyEntityFilter (aliasN impName : String) :
    Option (List Val) → Val → RState → RState
  | some flt, model_data, st =>
    let available := (Val.asList (model_data.getD "entities" (.list []))).map
      (fun e => getStrD e "name" "")
    let st₁ := flt.foldl (fun acc rq =>
      if available.contains (Val.asStr rq) then acc
      else pushIssue acc (entityNotFoundIssue aliasN (Val.asStr rq) impName)) st
    let filtered := model_data.dset "entities" (.list
      ((Val.asList (model_data.getD "entities" (.list []))).filter
        (fun e => (flt.map Val.asStr).contains (getStrD e "name" ""))))
    { st₁ with res := { st₁.res with
        imported_models := aset st₁.res.imported_models aliasN filtered } }
  | none, model_data, st =>
    { st with res := { st.res with
        imported_models := aset st.res.imported_models aliasN model_data } }

/-- The alias an import entry resolves to: imp.get("alias", imp_model_name). -/
def aliasOf (imp : Val) (impName : String) : String :=
  match imp.get? "alias" with
  | some (.str s) => s
  | some _ => ""
  | none => impName

/-- The entities filter of an import entry when truthy: a nonempty list.
An absent key, None, or an empty list all mean no filtering. -/
def filterOf (imp : Val) : Option (List Val) :=
  match imp.get? "entities" with
  | some (.list (x :: xs)) => some (x :: xs)
  | _ => none

/-- Lines 354-357 of _resolve_imports_recursive: ensure the declaring
model has an import-graph entry and append the import name to it. -/
def graphTrack (mn impName : String) (st : RState) : RState :=
  let g₀ := if ahas st.res.import_graph mn then st.res.import_graph
            else aset st.res.import_graph mn []
  { st with res := { st.res with
      import_graph := aset g₀ mn (((aget g₀ mn).getD []) ++ [impName]) } }

/-- A failed import load: the loader raised, and the unsuccessful read is
logged. -/
def failLogStep (impName : String) (fp : PathV) (st : RState) : RState :=
  { st with log := st.log ++ [.imp impName fp false] }

/-- Lines 374-395 of _resolve_imports_recursive after a successful load:
log the read, emit the name-mismatch warning when the declared name
differs, record the model in the loaded-models cache and the file map. -/
def loadOkStep (impName : String) (fp : PathV) (model_data : Val)
    (st : RState) : RState :=
  let st₂ := { st with log := st.log ++ [.imp impName fp true] }
  let actual := getStrD (model_data.getD "model" (.dict [])) "name" ""
  let st₃ := if actual ≠ "" ∧ actual ≠ impName then
      pushIssue st₂ (nameMismatchIssue impName actual)
    else st₂
  { st₃ with
    loaded := aset st₃.loaded impName model_data,
    res := { st₃.res with
      file_map := aset st₃.res.file_map impName (joinPath fp) } }

/-- Body of the for-loop over the import entries of
_resolve_imports_recursive.  recurse stands for the recursive call made for
the sub-imports of a freshly loaded model; rif below ties the knot through
its fuel so that the whole resolution is structurally recursive and
evaluates by kernel reduction. -/
def rifLoop (fs : FSys) (sdirs : List PathV)
    (recurse : String → List Val → PathV → Nat → RState → RState) :
    String → List Val → PathV → Nat → RState → RState
  | _, [], _, _, st => st
  | mn, imp :: rest, rootDir, depth, st =>
    let impName := getStrD imp "model" ""
    if impName == "" then
      rifLoop fs sdirs recurse mn rest rootDir depth (pushIssue st invalidImportIssue)
    else
      let st₁ := graphTrack mn impName st
      match aget st₁.loaded impName with
      | some model_data =>
        rifLoop fs sdirs recurse mn rest rootDir depth
          (applyEntityFilter (aliasOf imp impName) impName (filterOf imp) model_data st₁)
      | none =>
        match resolve_import_path fs imp rootDir sdirs with
        | none =>
          rifLoop fs sdirs recurse mn rest rootDir depth
            (pushIssue st₁ (importNotFoundIssue impName))
        | some fp =>
          match load_yaml_model fs fp with
          | .error msg =>
            rifLoop fs sdirs recurse mn rest rootDir depth
              (pushIssue (failLogStep impName fp st₁)
                (importLoadFailedIssue impName msg))
          | .ok model_data =>
            let st₄ := loadOkStep impName fp model_data st₁
            let sub := Val.asList
              ((model_data.getD "model" (.dict [])).getD "imports" (.list []))
            let st₅ := if sub.isEmpty then st₄
              else recurse impName sub fp.dropLast (depth + 1) st₄
            rifLoop fs sdirs recurse mn rest rootDir depth
              (applyEntityFilter (aliasOf imp impName) impName (filterOf imp)
                model_data st₅)

/-- resolver.py _resolve_imports_recursive, fuel-indexed.  The fuel only
forces termination: resolve_model supplies max_depth + 2, which the depth
guard makes sufficient, so the fuel-exhausted branch is never reached. -/
def rif (fs : FSys) (sdirs : List PathV) (maxDepth : Nat) :
    Nat → String → List Val → PathV → Nat → RState → RState
  | 0, _, _, _, _, st => st
  | fuel + 1, mn, imports, rootDir, depth, st =>
    if maxDepth < depth then pushIssue st (depthIssue maxDepth)
    else rifLoop fs sdirs
      (fun mn₂ imps rd d s => rif fs sdirs maxDepth fuel mn₂ imps rd d s)
      mn imports rootDir depth st

/-- Loop over the dependency list inside _detect_cycle; recurse stands for
the recursive DFS visit. -/
def dcfLoop
    (recurse : String → List String → List String → Bool × List String × List String) :
    List String → List String → List String → Bool × List String × List String
  | [], visiting, visited => (false, visiting, visited)
  | d :: ds, visiting, visited =>
    match recurse d visiting visited with
    | (true, vg, vd) => (true, vg, vd)
    | (false, vg, vd) => dcfLoop recurse ds vg vd

/-- resolver.py _detect_cycle, fuel-indexed DFS.  The visiting and visited
sets are threaded through and returned, mirroring the in-place set
mutation.  The fuel only forces termination; detect_cycle supplies enough
for any graph. -/
def dcf (g : List (String × List String)) :
    Nat → String → List String → List String → Bool × List String × List String
  | 0, _, visiting, visited => (false, visiting, visited)
  | fuel + 1, n, visiting, visited =>
    if visiting.contains n then (true, visiting, visited)
    else if visited.contains n then (false, visiting, visited)
    else
      match dcfLoop (fun m vg vd => dcf g fuel m vg vd)
          ((aget g n).getD []) (n :: visiting) visited with
      | (true, vg, vd) => (true, vg, vd)
      | (false, vg, vd) => (false, vg.erase n, n :: vd)

/-- Fuel bound large enough for the DFS: the nesting depth is bounded by the
number of distinct names reachable, all of which are keys or listed
dependencies. -/
def graphFuel (g : List (String × List String)) : Nat :=
  g.length + (g.map (fun p => p.2.length)).sum + 1

/-- Entry point of the cycle check as called by resolve_model: DFS from the
root name with empty visiting and visited sets. -/
def detect_cycle (root : String) (g : List (String × List String)) : Bool :=
  (dcf g (graphFuel g) root [] []).1

/-- Root half of the duplicate-entity sweep: seen_entities seeded with the
root model entities (nonempty names only), every one owned by the root. -/
def dupSeed (rootName : String) : List Val → List (String × String) → List (String × String)
  | [], seen => seen
  | e :: rest, seen =>
    let ename := getStrD e "name" ""
    if ename == "" then dupSeed rootName rest seen
    else dupSeed rootName rest (aset seen ename rootName)

/-- Inner entity loop of the duplicate sweep for one imported model. -/
def dupScanEnts (modelName aliasN : String) :
    List Val → List (String × String) → List Issue → List (String × String) × List Issue
  | [], seen, issues => (seen, issues)
  | e :: rest, seen, issues =>
    let ename := getStrD e "name" ""
    if ename == "" then dupScanEnts modelName aliasN rest seen issues
    else
      match aget seen ename with
      | some owner =>
        dupScanEnts modelName aliasN rest seen
          (issues ++ [dupEntityIssue ename owner modelName aliasN])
      | none => dupScanEnts modelName aliasN rest (aset seen ename modelName) issues

/-- Outer loop of the duplicate sweep over imported_models in insertion
order. -/
def dupScanModels :
    List (String × Val) → List (String × String) → List Issue → List Issue
  | [], _, issues => issues
  | (aliasN, model) :: rest, seen, issues =>
    let modelName := getStrD (model.getD "model" (.dict [])) "name" aliasN
    let ents := Val.asList (model.getD "entities" (.list []))
    match dupScanEnts modelName aliasN ents seen issues with
    | (seen₂, issues₂) => dupScanModels rest seen₂ issues₂

/-- Lines 295-315 of resolve_model: the issues appended by the duplicate
cross-model entity sweep. -/
def dupCheck (rootName : String) (rootEnts : List Val)
    (imported : List (String × Val)) : List Issue :=
  dupScanModels imported (dupSeed rootName rootEnts []) []

/-- resolver.py resolve_model over the explicit filesystem, returning the
full instrumented state (cache, result and load log).  Path.resolve is the
identity on the already-absolute component paths of the model. -/
def resolve_model (fs : FSys) (rootP : PathV) (searchDirs : List PathV) : RState :=
  let rootDir := rootP.dropLast
  match load_yaml_model fs rootP with
  | .error msg =>
    ⟨[], { emptyResolved with issues := [rootLoadFailedIssue msg] },
     [.root rootP false]⟩
  | .ok root_model =>
    let rootName := getStrD (root_model.getD "model" (.dict [])) "name" "unknown"
    let res₀ := { emptyResolved with
      root_model := root_model, file_map := [(rootName, joinPath rootP)] }
    let imports := Val.asList
      ((root_model.getD "model" (.dict [])).getD "imports" (.list []))
    if imports.isEmpty then ⟨[], res₀, [.root rootP true]⟩
    else
      let res₁ := { res₀ with import_graph := [(rootName, [])] }
      let st := rif fs searchDirs 10 12 rootName imports rootDir 0
        ⟨[], res₁, [.root rootP true]⟩
      let st₂ := if detect_cycle rootName st.res.import_graph then
          pushIssue st circularIssue
        else st
      let dup := dupCheck rootName
        (Val.asList (st₂.res.root_model.getD "entities" (.list [])))
        st₂.res.imported_models
      { st₂ with res := { st₂.res with issues := st₂.res.issues ++ dup } }

/-- Sorting of dict items by key, as sorted(d.items()) does for
string-keyed dicts with unique keys. -/
def sortItems {α : Type} (l : List (String × α)) : List (String × α) :=
  sortLe (fun a b => strLe a.1 b.1) l

/-- ResolvedModel.unified_entities: root entities tagged with the source
model name, then each imported model in ascending alias order with source
model and import alias tags. -/
def unified_entities (rm : ResolvedModel) : List Val :=
  let rootName := getStrD (rm.root_model.getD "model" (.dict [])) "name" "root"
  (Val.asList (rm.root_model.getD "entities" (.list []))).map
    (fun e => e.dset "_source_model" (.str rootName)) ++
  (sortItems rm.imported_models).flatMap (fun p =>
    let mname := getStrD (p.2.getD "model" (.dict [])) "name" p.1
    (Val.asList (p.2.getD "entities" (.list []))).map
      (fun e => (e.dset "_source_model" (.str mname)).dset "_import_alias" (.str p.1)))

/-- ResolvedModel.unified_relationships: same sweep over relationships,
tagging only the source model. -/
def unified_relationships (rm : ResolvedModel) : List Val :=
  let rootName := getStrD (rm.root_model.getD "model" (.dict [])) "name" "root"
  (Val.asList (rm.root_model.getD "relationships" (.list []))).map
    (fun r => r.dset "_source_model" (.str rootName)) ++
  (sortItems rm.imported_models).flatMap (fun p =>
    let mname := getStrD (p.2.getD "model" (.dict [])) "name" p.1
    (Val.asList (p.2.getD "relationships" (.list []))).map
      (fun r => r.dset "_source_model" (.str mname)))

/-- Lines 176-178 of to_graph_summary: the entity-name-to-owning-model dict,
built by iterating unified_entities and assigning into a dict (later
assignments overwrite earlier ones). -/
def entityToModel (rm : ResolvedModel) : List (String × String) :=
  (unified_entities rm).foldl
    (fun m e => aset m (getStrD e "name" "") (getStrD e "_source_model" "")) []

/-- Python (s or "").split(".")[0] for the already-string-defaulted s. -/
def splitDotFirst (s : String) : String :=
  String.mk (s.data.takeWhile (fun c => !(c == Char.ofNat 46)))

/-- imp.get("alias", imp.get("model", "")) in the model summaries. -/
def importAliasOf (imp : Val) : String :=
  match imp.get? "alias" with
  | some (.str s) => s
  | some _ => ""
  | none => getStrD imp "model" ""

/-- One "models" entry of the graph summary.  aliasN is none for the root
summary, which carries no alias key. -/
structure ModelSummary where
  name : String
  file : String
  entity_count : Nat
  entities : List String
  imports : List String
  is_root : Bool
  aliasN : Option String
  deriving DecidableEq

/-- One cross_model_relationships entry.  fromE and toE carry the JSON keys
from and to. -/
structure CrossRel where
  name : String
  from_model : String
  to_model : String
  fromE : String
  toE : String
  cardinality : String
  deriving DecidableEq

/-- The JSON-serializable summary returned by to_graph_summary. -/
structure GraphSummary where
  root_model : String
  model_count : Nat
  total_entities : Nat
  cross_model_relationships : List CrossRel
  models : List ModelSummary
  issues : List Issue

/-- Model summary for one imported model (lines 157-171). -/
def importedSummary (rm : ResolvedModel) (p : String × Val) : ModelSummary :=
  let mname := getStrD (p.2.getD "model" (.dict [])) "name" p.1
  let ents := Val.asList (p.2.getD "entities" (.list []))
  ⟨mname, (aget rm.file_map mname).getD "", ents.length,
   ents.map (fun e => getStrD e "name" ""),
   (Val.asList ((p.2.getD "model" (.dict [])).getD "imports" (.list []))).map importAliasOf,
   false, some p.1⟩

/-- ResolvedModel.to_graph_summary. -/
def to_graph_summary (rm : ResolvedModel) : GraphSummary :=
  let rootName := getStrD (rm.root_model.getD "model" (.dict [])) "name" "unknown"
  let rootEnts := Val.asList (rm.root_model.getD "entities" (.list []))
  let rootSummary : ModelSummary :=
    ⟨rootName, (aget rm.file_map rootName).getD "", rootEnts.length,
     rootEnts.map (fun e => getStrD e "name" ""),
     (Val.asList ((rm.root_model.getD "model" (.dict [])).getD "imports" (.list []))).map
       importAliasOf,
     true, none⟩
  let models := rootSummary :: (sortItems rm.imported_models).map (importedSummary rm)
  let e2m := entityToModel rm
  let cross := (unified_relationships rm).filterMap (fun rel =>
    let fromE := splitDotFirst (getStrD rel "from" "")
    let toE := splitDotFirst (getStrD rel "to" "")
    let fromM := (aget e2m fromE).getD ""
    let toM := (aget e2m toE).getD ""
    if fromM ≠ "" ∧ toM ≠ "" ∧ fromM ≠ toM then
      some ⟨getStrD rel "name" "", fromM, toM, getStrD rel "from" "",
            getStrD rel "to" "", getStrD rel "cardinality" ""⟩
    else none)
  ⟨rootName, models.length, (models.map (fun m => m.entity_count)).sum,
   cross, models, rm.issues⟩

/-!  ## The end-to-end multi-model scenario (dm_cli/main.py fixtures)

MULTI_MODEL_SHARED and MULTI_MODEL_ORDERS below are the YAML fixtures of
the CLI init command, translated literally; the files are laid out as init
writes them (models/shared/shared_dimensions.model.yaml and
models/orders/orders.model.yaml under a workspace root) with the search
dirs the generated project config supplies.  -/

def MULTI_MODEL_SHARED : Val :=
  .dict [
   ("model", .dict [
     ("name", .str "shared_dimensions"),
     ("spec_version", .int 2),
     ("version", .str "1.0.0"),
     ("domain", .str "shared"),
     ("owners", .list [.str "data-team@example.com"]),
     ("state", .str "draft"),
     ("description", .str "Shared dimension entities used across domain models")]),
   ("entities", .list [
     .dict [
       ("name", .str "Customer"),
       ("type", .str "table"),
       ("description", .str "Customer master record"),
       ("schema", .str "shared"),
       ("subject_area", .str "customer_domain"),
       ("fields", .list [
         .dict [("name", .str "customer_id"), ("type", .str "integer"),
                ("primary_key", .bool true), ("nullable", .bool false)],
         .dict [("name", .str "email"), ("type", .str "string"),
                ("nullable", .bool false), ("unique", .bool true)],
         .dict [("name", .str "full_name"), ("type", .str "string"),
                ("nullable", .bool false)],
         .dict [("name", .str "created_at"), ("type", .str "timestamp"),
                ("nullable", .bool false)]])]]),
   ("indexes", .list [
     .dict [("name", .str "idx_customer_email"), ("entity", .str "Customer"),
            ("fields", .list [.str "email"]), ("unique", .bool true)]])]

def MULTI_MODEL_ORDERS : Val :=
  .dict [
   ("model", .dict [
     ("name", .str "orders"),
     ("spec_version", .int 2),
     ("version", .str "1.0.0"),
     ("domain", .str "sales"),
     ("owners", .list [.str "data-team@example.com"]),
     ("state", .str "draft"),
     ("description", .str "Order domain model"),
     ("imports", .list [
       .dict [("model", .str "shared_dimensions"), ("alias", .str "shared"),
              ("entities", .list [.str "Customer"])]])]),
   ("entities", .list [
     .dict [
       ("name", .str "Order"),
       ("type", .str "table"),
       ("description", .str "Customer orders"),
       ("schema", .str "sales"),
       ("subject_area", .str "order_domain"),
       ("fields", .list [
         .dict [("name", .str "order_id"), ("type", .str "integer"),
                ("primary_key", .bool true), ("nullable", .bool false)],
         .dict [("name", .str "customer_id"), ("type", .str "integer"),
                ("nullable", .bool false), ("foreign_key", .bool true)],
         .dict [("name", .str "total_amount"), ("type", .str "decimal(12,2)"),
                ("nullable", .bool false)],
         .dict [("name", .str "order_date"), ("type", .str "timestamp"),
                ("nullable", .bool false)]])]]),
   ("relationships", .list [
     .dict [("name", .str "order_customer"), ("from", .str "Order.customer_id"),
            ("to", .str "Customer.customer_id"), ("cardinality", .str "many_to_one"),
            ("description", .str "Order belongs to a customer (cross-model)")]])]

def c2fs : FSys :=
  ⟨[(["ws","models","shared","shared_dimensions.model.yaml"], .ok MULTI_MODEL_SHARED),
    (["ws","models","orders","orders.model.yaml"], .ok MULTI_MODEL_ORDERS)]⟩

def c2root : PathV := ["ws","models","orders","orders.model.yaml"]

def c2dirs : List PathV := [["ws","models","shared"],["ws","models","orders"]]

/-- The graph summary obtained by resolving the orders root model of the
scenario. -/
def c2summary : GraphSummary := to_graph_summary (resolve_model c2fs c2root c2dirs).res

/-- Claim C2, counterexample.  Resolving the end-to-end scenario yields
exactly one cross-model relationship, but its from_model is "orders" (the
model owning the from-entity Order) and its to_model is
"shared_dimensions" — the opposite of the claimed orientation. -/
theorem c2_cross_model_counterexample :
    c2summary.cross_model_relationships.map (fun r => (r.from_model, r.to_model)) =
      [("orders", "shared_dimensions")] ∧
    ¬ (c2summary.cross_model_relationships.all
        (fun r => r.from_model == "shared_dimensions" && r.to_model == "orders")) = true := by
  decide

/-- Claim C2, amended.  Resolving the end-to-end scenario yields
model_count 2, total_entities 2 and exactly one cross-model relationship,
with from_model = "orders" and to_model = "shared_dimensions". -/
theorem c2_cross_model_amended :
    c2summary.model_count = 2 ∧
    c2summary.total_entities = 2 ∧
    c2summary.cross_model_relationships =
      [⟨"order_customer", "orders", "shared_dimensions",
        "Order.customer_id", "Customer.customer_id", "many_to_one"⟩] := by
  decide

/-- Claim C4.  When loading the root document fails, resolve_model aborts:
the result carries exactly the single fatal ROOT_LOAD_FAILED error issue,
an empty root model, no imported models, an empty import graph and an
empty file map. -/
theorem c4_root_load_failure_empty (fs : FSys) (rootP : PathV)
    (sdirs : List PathV) (msg : String)
    (h : load_yaml_model fs rootP = .error msg) :
    (resolve_model fs rootP sdirs).res.issues = [rootLoadFailedIssue msg] ∧
    (rootLoadFailedIssue msg).severity = "error" ∧
    (rootLoadFailedIssue msg).code = "ROOT_LOAD_FAILED" ∧
    (resolve_model fs rootP sdirs).res.root_model = .dict [] ∧
    (resolve_model fs rootP sdirs).res.imported_models = [] ∧
    (resolve_model fs rootP sdirs).res.import_graph = [] ∧
    (resolve_model fs rootP sdirs).res.file_map = [] := by
  unfold resolve_model
  rw [h]
  exact ⟨rfl, rfl, rfl, rfl, rfl, rfl, rfl⟩

def c4fs : FSys := ⟨[(["ws", "broken.model.yaml"], .err "boom")]⟩

/-- Witness for C4 at a one-file filesystem whose only file fails to
parse. -/
theorem c4_root_load_failure_witness :
    (resolve_model c4fs ["ws", "broken.model.yaml"] []).res.issues =
      [rootLoadFailedIssue "boom"] ∧
    (rootLoadFailedIssue "boom").severity = "error" ∧
    (rootLoadFailedIssue "boom").code = "ROOT_LOAD_FAILED" ∧
    (resolve_model c4fs ["ws", "broken.model.yaml"] []).res.root_model = .dict [] ∧
    (resolve_model c4fs ["ws", "broken.model.yaml"] []).res.imported_models = [] ∧
    (resolve_model c4fs ["ws", "broken.model.yaml"] []).res.import_graph = [] ∧
    (resolve_model c4fs ["ws", "broken.model.yaml"] []).res.file_map = [] :=
  c4_root_load_failure_empty c4fs ["ws", "broken.model.yaml"] [] "boom" rfl

/-!  ## Search order of _find_model_file (claim C5)  -/

/-- First search directory whose top level holds a candidate file. -/
def topPass (fs : FSys) (cands : List String) : List PathV → Option PathV
  | [] => none
  | d :: rest =>
    match firstCand fs d cands with
    | some p => some p
    | none => topPass fs cands rest

/-- First searched directory one of whose non-hidden immediate
subdirectories holds a candidate file. -/
def subPass (fs : FSys) (cands : List String) : List PathV → Option PathV
  | [] => none
  | d :: rest =>
    if isDirV fs d then
      match scanSubs fs d cands (childNames fs d) with
      | some p => some p
      | none => subPass fs cands rest
    else subPass fs cands rest

/-- Written from the claim text, not from the source: search every
directory top level first (in the order given), and only then, for every
searched directory, its immediate subdirectories in lexicographic order;
the first candidate file found wins. -/
def findModelFileSpec (fs : FSys) (name : String) (dirs : List PathV) : Option PathV :=
  let cands := [name ++ ".model.yaml", name ++ ".model.yml"]
  match topPass fs cands dirs with
  | some p => some p
  | none => subPass fs cands dirs

/-- Probe of one searched directory: its top level, then its sorted
non-hidden immediate subdirectories. -/
def dirProbe (fs : FSys) (cands : List String) (d : PathV) : Option PathV :=
  match firstCand fs d cands with
  | some p => some p
  | none => if isDirV fs d then scanSubs fs d cands (childNames fs d) else none

/-- Written from the amended wording: the directories are probed one after
the other, and each directory is probed completely (top level, then its
sorted non-hidden immediate subdirectories) before the next directory is
considered. -/
def findModelFileAmended (fs : FSys) (name : String) (dirs : List PathV) : Option PathV :=
  dirs.findSome? (dirProbe fs [name ++ ".model.yaml", name ++ ".model.yml"])

/-- Filesystem refuting the claimed global ordering: the model file exists
both in a subdirectory of the declaring directory r and at the top level of
the caller search directory s. -/
def c5fs : FSys :=
  ⟨[(["r", "sub", "m.model.yaml"], .ok (.dict [])),
    (["s", "m.model.yaml"], .ok (.dict []))]⟩

/-- Claim C5, counterexample.  For an import of model m declared in
directory r with caller search directory s, the source returns the file in
the subdirectory of r, while the claimed ordering (all top levels before
any subdirectory) would return the top-level file in s. -/
theorem c5_search_order_counterexample :
    resolve_import_path c5fs (.dict [("model", .str "m")]) ["r"] [["s"]] =
      some ["r", "sub", "m.model.yaml"] ∧
    findModelFileSpec c5fs "m" [["r"], ["s"]] = some ["s", "m.model.yaml"] ∧
    resolve_import_path c5fs (.dict [("model", .str "m")]) ["r"] [["s"]] ≠
      findModelFileSpec c5fs "m" [["r"], ["s"]] := by
  refine ⟨by decide, by decide, ?_⟩
  intro h
  have h₁ : (["r", "sub", "m.model.yaml"] : PathV) = ["s", "m.model.yaml"] := by
    have ha : resolve_import_path c5fs (.dict [("model", .str "m")]) ["r"] [["s"]] =
        some ["r", "sub", "m.model.yaml"] := by decide
    have hb : findModelFileSpec c5fs "m" [["r"], ["s"]] = some ["s", "m.model.yaml"] := by
      decide
    rw [ha, hb] at h
    exact Option.some.inj h
  exact absurd h₁ (by decide)

/-- Claim C5, amended.  The true search order is interleaved per
directory: each searched directory is probed completely (top level first,
then its sorted non-hidden immediate subdirectories) before the next
directory is considered; the directories are the declaring model
directory followed by the caller search directories. -/
theorem c5_search_order_amended (fs : FSys) (name : String) (dirs : List PathV) :
    find_model_file fs name dirs = findModelFileAmended fs name dirs := by
  induction dirs with
  | nil => rfl
  | cons d rest ih =>
    show find_model_file fs name (d :: rest) = _
    rw [find_model_file, findModelFileAmended, List.findSome?_cons]
    rw [findModelFileAmended] at ih
    unfold dirProbe
    cases hfc : firstCand fs d [name ++ ".model.yaml", name ++ ".model.yml"] with
    | some p => rfl
    | none =>
      by_cases hd : isDirV fs d
      · simp only [hd, if_true]
        cases hs : scanSubs fs d [name ++ ".model.yaml", name ++ ".model.yml"]
            (childNames fs d) with
        | some p => rfl
        | none => exact ih
      · simp only [hd, if_false, Bool.false_eq_true]
        exact ih

/-!  ## Entity filtering (claim C7)  -/

theorem aget_aset_self {α : Type} (l : List (String × α)) (k : String) (v : α) :
    aget (aset l k v) k = some v := by
  induction l with
  | nil => simp [aset, aget]
  | cons p rest ih =>
    by_cases h : p.1 = k
    · simp [aset, h, aget]
    · simp [aset, h, aget, ih]

theorem aget_aset_ne {α : Type} (l : List (String × α)) (k k₂ : String) (v : α)
    (h : k₂ ≠ k) : aget (aset l k v) k₂ = aget l k₂ := by
  have hkk : ¬ k = k₂ := fun hh => h hh.symm
  induction l with
  | nil =>
    show aget [(k, v)] k₂ = aget [] k₂
    simp [aget, hkk]
  | cons p rest ih =>
    obtain ⟨a, b⟩ := p
    by_cases hp : a = k
    · have hne : ¬ a = k₂ := by rw [hp]; exact hkk
      show aget (if a = k then (a, v) :: rest else (a, b) :: aset rest k v) k₂ = _
      rw [if_pos hp]
      show (if a = k₂ then some v else aget rest k₂) =
        (if a = k₂ then some b else aget rest k₂)
      rw [if_neg hne, if_neg hne]
    · show aget (if a = k then (a, v) :: rest else (a, b) :: aset rest k v) k₂ = _
      rw [if_neg hp]
      show (if a = k₂ then some b else aget (aset rest k v) k₂) =
        (if a = k₂ then some b else aget rest k₂)
      by_cases hq : a = k₂
      · rw [if_pos hq, if_pos hq]
      · rw [if_neg hq, if_neg hq, ih]

/-- The issue-appending fold of the entity filter, resolved: it appends one
issue per list element failing the predicate, in list order, and touches
nothing else. -/
theorem foldPush_resolved (p : Val → Bool) (f : Val → Issue) :
    ∀ (flt : List Val) (st : RState),
      flt.foldl (fun acc rq => if p rq then acc else pushIssue acc (f rq)) st =
        { st with res := { st.res with
            issues := st.res.issues ++ (flt.filter (fun rq => !(p rq))).map f } } := by
  intro flt
  induction flt with
  | nil => intro st; simp
  | cons x rest ih =>
    intro st
    by_cases hx : p x
    · rw [List.foldl_cons, if_pos hx, ih, List.filter_cons]
      simp [hx]
    · have hx₂ : p x = false := by simpa using hx
      rw [List.foldl_cons, if_neg (by simp [hx₂]), ih, List.filter_cons]
      simp [hx₂, pushIssue]

theorem map_filter_comp (f : Val → String) (q : String → Bool) :
    ∀ l : List Val, (l.filter (fun e => q (f e))).map f = (l.map f).filter q := by
  intro l
  induction l with
  | nil => rfl
  | cons a rest ih =>
    by_cases h : q (f a)
    · simp [List.filter_cons, h, ih]
    · simp [List.filter_cons, h, ih]

/-- Claim C7, amended.  Applying an entities filter registers, under the
alias of the import, a filtered copy whose entities are exactly the target
entities whose names occur in the filter (so the exposed names are the
requested-and-available ones, in target order); it appends one
IMPORT_ENTITY_NOT_FOUND issue per occurrence in the filter list of a name
absent from the target (not one per distinct absent name); and it leaves
the loaded-models cache and the load log untouched. -/
theorem c7_entity_filter_amended (aliasN impName : String) (flt : List Val)
    (model_data : Val) (st : RState) :
    aget (applyEntityFilter aliasN impName (some flt) model_data st).res.imported_models
        aliasN =
      some (model_data.dset "entities" (.list
        ((Val.asList (model_data.getD "entities" (.list []))).filter
          (fun e => (flt.map Val.asStr).contains (getStrD e "name" ""))))) ∧
    ((Val.asList (model_data.getD "entities" (.list []))).filter
        (fun e => (flt.map Val.asStr).contains (getStrD e "name" ""))).map
        (fun e => getStrD e "name" "") =
      ((Val.asList (model_data.getD "entities" (.list []))).map
        (fun e => getStrD e "name" "")).filter
        (fun n => (flt.map Val.asStr).contains n) ∧
    (applyEntityFilter aliasN impName (some flt) model_data st).res.issues =
      st.res.issues ++
        (flt.filter (fun rq =>
          !(((Val.asList (model_data.getD "entities" (.list []))).map
              (fun e => getStrD e "name" "")).contains (Val.asStr rq)))).map
          (fun rq => entityNotFoundIssue aliasN (Val.asStr rq) impName) ∧
    (applyEntityFilter aliasN impName (some flt) model_data st).loaded = st.loaded ∧
    (applyEntityFilter aliasN impName (some flt) model_data st).log = st.log := by
  simp only [applyEntityFilter]
  rw [foldPush_resolved]
  refine ⟨aget_aset_self _ _ _, ?_, rfl, rfl, rfl⟩
  exact map_filter_comp (fun e => getStrD e "name" "")
    (fun n => (flt.map Val.asStr).contains n) _

/-- Claim C7, counterexample.  A filter naming the same absent entity twice
produces two IMPORT_ENTITY_NOT_FOUND issues, one per occurrence, refuting
one issue per absent name. -/
theorem c7_entity_filter_counterexample :
    (applyEntityFilter "a" "m" (some [.str "X", .str "X"])
        (.dict [("entities", .list [])]) ⟨[], emptyResolved, []⟩).res.issues =
      [entityNotFoundIssue "a" "X" "m", entityNotFoundIssue "a" "X" "m"] ∧
    (applyEntityFilter "a" "m" (some [.str "X", .str "X"])
        (.dict [("entities", .list [])]) ⟨[], emptyResolved, []⟩).res.issues.length ≠ 1 := by
  decide

/-!  ## The entity-to-model index of to_graph_summary (claim C10)  -/

/-- Folding dict assignments keyed by f with values g over a list: the
final binding of a key is the value of the last list element whose f-key
matches, and keys never assigned keep their prior binding. -/
theorem getLast?_cons_isSome {α : Type} :
    ∀ (ys : List α) (y : α), ∃ z, (y :: ys).getLast? = some z := by
  intro ys
  induction ys with
  | nil => intro y; exact ⟨y, rfl⟩
  | cons y₂ ys ih =>
    intro y
    rw [List.getLast?_cons_cons]
    exact ih y₂

theorem aget_foldl_aset (f g : Val → String) :
    ∀ (l : List Val) (m : List (String × String)) (k : String),
      aget (l.foldl (fun acc e => aset acc (f e) (g e)) m) k =
        match (l.filter (fun e => f e == k)).getLast? with
        | some e => some (g e)
        | none => aget m k := by
  intro l
  induction l with
  | nil => intro m k; simp
  | cons e rest ih =>
    intro m k
    rw [List.foldl_cons, ih]
    by_cases hbe : f e == k
    · have hfk : f e = k := by simpa using hbe
      rw [List.filter_cons]
      simp only [hbe, if_true]
      cases hfr : rest.filter (fun x => f x == k) with
      | nil =>
        simp only [List.getLast?_nil, List.getLast?_singleton]
        rw [hfk]
        exact aget_aset_self m k (g e)
      | cons y ys =>
        obtain ⟨z, hz⟩ := getLast?_cons_isSome ys y
        rw [List.getLast?_cons_cons, hz]
    · have hne : k ≠ f e := by
        intro hh
        exact absurd (by simp [hh]) hbe
      rw [List.filter_cons]
      simp only [hbe, Bool.false_eq_true, if_false]
      cases hfr : (rest.filter (fun x => f x == k)).getLast? with
      | some y => rfl
      | none => exact aget_aset_ne m (f e) k (g e) hne

def c10rootDoc : Val :=
  .dict [
   ("model", .dict [
     ("name", .str "rootM"),
     ("imports", .list [.dict [("model", .str "dim")]])]),
   ("entities", .list [.dict [("name", .str "Customer"), ("type", .str "table")]])]

def c10dimDoc : Val :=
  .dict [
   ("model", .dict [("name", .str "dim")]),
   ("entities", .list [.dict [("name", .str "Customer"), ("type", .str "table")]])]

def c10fs : FSys :=
  ⟨[(["d", "root.model.yaml"], .ok c10rootDoc),
    (["d", "dim.model.yaml"], .ok c10dimDoc)]⟩

/-- Claim C10.  The entity-name-to-model index of to_graph_summary is
last-wins over unified_entities (root first, then imported models in
ascending alias order); resolving a scenario where root rootM and import
dim both declare entity Customer therefore classifies Customer as owned by
dim, while the duplicate-entity warning of the same resolution names the
first owner rootM. -/
theorem c10_entity_index_last_wins :
    (∀ (rm : ResolvedModel) (n : String),
      aget (entityToModel rm) n =
        match ((unified_entities rm).filter
            (fun e => getStrD e "name" "" == n)).getLast? with
        | some e => some (getStrD e "_source_model" "")
        | none => none) ∧
    aget (entityToModel (resolve_model c10fs ["d", "root.model.yaml"] []).res)
        "Customer" = some "dim" ∧
    (resolve_model c10fs ["d", "root.model.yaml"] []).res.issues =
      [dupEntityIssue "Customer" "rootM" "dim" "dim"] ∧
    ("dim" : String) ≠ "rootM" := by
  refine ⟨?_, by decide, by decide, by decide⟩
  intro rm n
  exact aget_foldl_aset (fun e => getStrD e "name" "")
    (fun e => getStrD e "_source_model" "") (unified_entities rm) [] n

/-!  ## Load-at-most-once caching (claim C3)  -/

/-- Path a load event read. -/
def evPath : LoadEv → PathV
  | .root p _ => p
  | .imp _ p _ => p

/-- Names of the successful import loads, in load order. -/
def impLoadNames (log : List LoadEv) : List String :=
  log.filterMap fun ev =>
    match ev with
    | .imp n _ true => some n
    | _ => none

def c3docA : Val :=
  .dict [
   ("model", .dict [
     ("name", .str "A"),
     ("imports", .list [.dict [("model", .str "B")]])]),
   ("entities", .list [])]

def c3docB : Val :=
  .dict [
   ("model", .dict [
     ("name", .str "B"),
     ("imports", .list [.dict [("model", .str "A")]])]),
   ("entities", .list [])]

def c3fs : FSys :=
  ⟨[(["d", "A.model.yaml"], .ok c3docA),
    (["d", "B.model.yaml"], .ok c3docB)]⟩

/-- Claim C3, counterexample.  With root A importing B and B importing A,
the root file is read and parsed twice: once as the root load and once
more when resolving the import named A, because the loaded-models cache
never receives the root model. -/
theorem c3_load_once_counterexample :
    (resolve_model c3fs ["d", "A.model.yaml"] []).log =
      [.root ["d", "A.model.yaml"] true,
       .imp "B" ["d", "B.model.yaml"] true,
       .imp "A" ["d", "A.model.yaml"] true] ∧
    ((resolve_model c3fs ["d", "A.model.yaml"] []).log.filter
      (fun ev => evPath ev == ["d", "A.model.yaml"])).length = 2 ∧
    ¬ ((resolve_model c3fs ["d", "A.model.yaml"] []).log.filter
      (fun ev => evPath ev == ["d", "A.model.yaml"])).length ≤ 1 := by
  refine ⟨by decide, by decide, by decide⟩

/-- Resolution invariant: the successfully loaded import names are
pairwise distinct, and each of them is a key of the loaded-models cache. -/
def Pinv (st : RState) : Prop :=
  (impLoadNames st.log).Nodup ∧
  ∀ n ∈ impLoadNames st.log, ahas st.loaded n = true

theorem Pinv_pushIssue (st : RState) (i : Issue) (h : Pinv st) :
    Pinv (pushIssue st i) := h

theorem applyEntityFilter_loaded (a i : String) (filt : Option (List Val))
    (d : Val) (st : RState) :
    (applyEntityFilter a i filt d st).loaded = st.loaded := by
  cases filt with
  | none => rfl
  | some flt =>
    simp only [applyEntityFilter]
    rw [foldPush_resolved]

theorem applyEntityFilter_log (a i : String) (filt : Option (List Val))
    (d : Val) (st : RState) :
    (applyEntityFilter a i filt d st).log = st.log := by
  cases filt with
  | none => rfl
  | some flt =>
    simp only [applyEntityFilter]
    rw [foldPush_resolved]

theorem Pinv_applyEntityFilter (a i : String) (filt : Option (List Val))
    (d : Val) (st : RState) (h : Pinv st) :
    Pinv (applyEntityFilter a i filt d st) := by
  unfold Pinv
  rw [applyEntityFilter_loaded, applyEntityFilter_log]
  exact h

theorem ahas_aset_self {α : Type} (l : List (String × α)) (k : String) (v : α) :
    ahas (aset l k v) k = true := by
  simp [ahas, aget_aset_self]

theorem ahas_aset_of {α : Type} (l : List (String × α)) (k n : String) (v : α)
    (h : ahas l n = true) : ahas (aset l k v) n = true := by
  by_cases hnk : n = k
  · subst hnk; exact ahas_aset_self l n v
  · unfold ahas
    rw [aget_aset_ne l k n v hnk]
    exact h

theorem impLoadNames_append_ok (l : List LoadEv) (n : String) (p : PathV) :
    impLoadNames (l ++ [.imp n p true]) = impLoadNames l ++ [n] := by
  simp [impLoadNames, List.filterMap_append]

theorem impLoadNames_append_fail (l : List LoadEv) (n : String) (p : PathV) :
    impLoadNames (l ++ [.imp n p false]) = impLoadNames l := by
  simp [impLoadNames, List.filterMap_append]

theorem Pinv_failLog (st : RState) (n : String) (p : PathV) (h : Pinv st) :
    Pinv { st with log := st.log ++ [.imp n p false] } := by
  unfold Pinv
  rw [show ({ st with log := st.log ++ [.imp n p false] } : RState).log =
    st.log ++ [.imp n p false] from rfl]
  rw [impLoadNames_append_fail]
  exact h

/-- The mismatch-warning branch only touches issues. -/
theorem if_pushIssue_loaded (c : Prop) [Decidable c] (st : RState) (i : Issue) :
    (if c then pushIssue st i else st).loaded = st.loaded := by
  split <;> rfl

theorem if_pushIssue_log (c : Prop) [Decidable c] (st : RState) (i : Issue) :
    (if c then pushIssue st i else st).log = st.log := by
  split <;> rfl

theorem Pinv_graphTrack (mn impName : String) (st : RState) (h : Pinv st) :
    Pinv (graphTrack mn impName st) := h

theorem Pinv_failLogStep (impName : String) (fp : PathV) (st : RState)
    (h : Pinv st) : Pinv (failLogStep impName fp st) := by
  unfold Pinv
  rw [show (failLogStep impName fp st).log = st.log ++ [.imp impName fp false] from rfl,
    impLoadNames_append_fail]
  exact h

theorem loadOkStep_loaded (impName : String) (fp : PathV) (d : Val) (st : RState) :
    (loadOkStep impName fp d st).loaded = aset st.loaded impName d := by
  simp only [loadOkStep]
  rw [if_pushIssue_loaded]

theorem loadOkStep_log (impName : String) (fp : PathV) (d : Val) (st : RState) :
    (loadOkStep impName fp d st).log = st.log ++ [.imp impName fp true] := by
  simp only [loadOkStep]
  rw [if_pushIssue_log]

/-- The state after a successful cache-miss load preserves the invariant:
the new name was not in the cache, hence not among the logged names, and it
is added to the cache. -/
theorem Pinv_loadStep (st st₂ : RState) (impName : String) (p : PathV) (d : Val)
    (h : Pinv st) (hc : aget st.loaded impName = none)
    (hld : st₂.loaded = aset st.loaded impName d)
    (hlg : st₂.log = st.log ++ [.imp impName p true]) : Pinv st₂ := by
  obtain ⟨hnd, hmem⟩ := h
  have hnotin : impName ∉ impLoadNames st.log := by
    intro hin
    have := hmem impName hin
    rw [ahas, hc] at this
    exact absurd this (by decide)
  constructor
  · rw [hlg, impLoadNames_append_ok]
    simp only [List.nodup_append, List.nodup_cons, List.not_mem_nil, not_false_iff,
      List.nodup_nil, and_true, true_and]
    simp only [List.disjoint_singleton]
    exact ⟨by trivial, hnotin⟩
  · intro n hn
    rw [hlg, impLoadNames_append_ok] at hn
    rw [hld]
    rcases List.mem_append.mp hn with hn₁ | hn₂
    · exact ahas_aset_of _ _ _ _ (hmem n hn₁)
    · have : n = impName := by simpa using hn₂
      subst this
      exact ahas_aset_self _ _ _

theorem Pinv_loadOkStep (impName : String) (fp : PathV) (d : Val) (st : RState)
    (h : Pinv st) (hc : aget st.loaded impName = none) :
    Pinv (loadOkStep impName fp d st) :=
  Pinv_loadStep st _ impName fp d h hc (loadOkStep_loaded impName fp d st)
    (loadOkStep_log impName fp d st)

/-- rifLoop preserves the invariant whenever the recursive call does. -/
theorem rifLoop_pinv (fs : FSys) (sdirs : List PathV)
    (recurse : String → List Val → PathV → Nat → RState → RState)
    (hrec : ∀ mn imps rd dp s, Pinv s → Pinv (recurse mn imps rd dp s)) :
    ∀ (imports : List Val) (mn : String) (rootDir : PathV) (depth : Nat)
      (st : RState), Pinv st →
      Pinv (rifLoop fs sdirs recurse mn imports rootDir depth st) := by
  intro imports
  induction imports with
  | nil => intro mn rootDir depth st h; exact h
  | cons imp rest ih =>
    intro mn rootDir depth st h
    simp only [rifLoop]
    by_cases hie : (getStrD imp "model" "") == ""
    · rw [if_pos hie]
      exact ih _ _ _ _ (Pinv_pushIssue st _ h)
    · rw [if_neg hie]
      have h₁ : Pinv (graphTrack mn (getStrD imp "model" "") st) :=
        Pinv_graphTrack _ _ _ h
      split
      · exact ih _ _ _ _ (Pinv_applyEntityFilter _ _ _ _ _ h₁)
      · split
        · exact ih _ _ _ _ (Pinv_pushIssue _ _ h₁)
        · split
          · exact ih _ _ _ _ (Pinv_pushIssue _ _ (Pinv_failLogStep _ _ _ h₁))
          · rename_i hcache x₂ fp hrip x₃ model_data hload
            have h₄ : Pinv (loadOkStep (getStrD imp "model" "") fp model_data
                (graphTrack mn (getStrD imp "model" "") st)) :=
              Pinv_loadOkStep _ _ _ _ h₁ hcache
            apply ih
            apply Pinv_applyEntityFilter
            split
            · exact h₄
            · exact hrec _ _ _ _ _ h₄

/-- rif preserves the invariant. -/
theorem rif_pinv (fs : FSys) (sdirs : List PathV) (maxD : Nat) :
    ∀ (fuel : Nat) (mn : String) (imports : List Val) (rootDir : PathV)
      (depth : Nat) (st : RState), Pinv st →
      Pinv (rif fs sdirs maxD fuel mn imports rootDir depth st) := by
  intro fuel
  induction fuel with
  | zero => intro mn imports rootDir depth st h; exact h
  | succ fuel ih =>
    intro mn imports rootDir depth st h
    rw [rif]
    split
    · exact Pinv_pushIssue st _ h
    · exact rifLoop_pinv fs sdirs _ (fun mn₂ imps rd dp s hs => ih mn₂ imps rd dp s hs)
        imports mn rootDir depth st h

/-- Claim C3, amended.  Within one call to resolve_model, each distinct
IMPORT name is successfully loaded at most once: the successful import
load events carry pairwise-distinct model names (the root file, by
contrast, can be re-read when an import names the root model, as the
counterexample shows). -/
theorem c3_load_once_amended (fs : FSys) (rootP : PathV) (sdirs : List PathV) :
    (impLoadNames (resolve_model fs rootP sdirs).log).Nodup := by
  have key : ∀ (st : RState), Pinv st → ∀ (c : Prop), ∀ inst : Decidable c,
      ∀ (r : ResolvedModel),
      (impLoadNames
        ({ (if c then pushIssue st circularIssue else st) with res := r } : RState).log).Nodup := by
    intro st h c inst r
    rcases inst with hc | hc
    · rw [if_neg hc]
      exact h.1
    · rw [if_pos hc]
      exact h.1
  unfold resolve_model
  cases hl : load_yaml_model fs rootP with
  | error msg => simp [impLoadNames]
  | ok root_model =>
    simp only
    split
    · simp [impLoadNames]
    · apply key
      apply rif_pinv
      constructor
      · simp [impLoadNames]
      · intro n hn
        simp [impLoadNames] at hn

/-!  ## Circular imports (claim C6)  -/

/-- A model file declaring one import: model self imports model other. -/
def c6doc (self other : String) : Val :=
  .dict [("model", .dict [("name", .str self),
          ("imports", .list [.dict [("model", .str other)]])]),
         ("entities", .list [])]

/-- Two loadable files in directory d forming the cycle: A imports B,
and B imports A. -/
def c6fs (nA nB : String) : FSys :=
  ⟨[(["d", nA ++ ".model.yaml"], .ok (c6doc nA nB)),
    (["d", nB ++ ".model.yaml"], .ok (c6doc nB nA))]⟩

theorem strAppend_cancel (a b s : String) (h : a ++ s = b ++ s) : a = b := by
  have hd := congrArg String.data h
  rw [String.data_append, String.data_append] at hd
  have hd₂ := List.append_cancel_right hd
  cases a; cases b; exact congrArg String.mk (by simpa using hd₂)

/-- Claim C6.  For every pair of distinct nonempty model names, resolving
root A where A imports B and B imports A (both files loadable) yields
exactly one issue with code CIRCULAR_IMPORT; in fact the circular-import
issue is the only issue of the whole resolution. -/
theorem c6_circular_import_single (nA nB : String) (h1 : nA ≠ nB)
    (h3 : nA ≠ "") (h4 : nB ≠ "") :
    (resolve_model (c6fs nA nB) ["d", nA ++ ".model.yaml"] []).res.issues =
      [circularIssue] ∧
    ((resolve_model (c6fs nA nB) ["d", nA ++ ".model.yaml"] []).res.issues.filter
      (fun i => i.code == "CIRCULAR_IMPORT")).length = 1 := by
  have h2 : nB ≠ nA := fun hh => h1 hh.symm
  have h5 : ¬(nA ++ ".model.yaml" = nB ++ ".model.yaml") :=
    fun hh => h1 (strAppend_cancel nA nB ".model.yaml" hh)
  have h6 : ¬(nB ++ ".model.yaml" = nA ++ ".model.yaml") :=
    fun hh => h2 (strAppend_cancel nB nA ".model.yaml" hh)
  have hiss : (resolve_model (c6fs nA nB) ["d", nA ++ ".model.yaml"] []).res.issues =
      [circularIssue] := by
    simp [resolve_model, rif, rifLoop, graphTrack, loadOkStep, failLogStep,
      applyEntityFilter, aliasOf, filterOf, resolve_import_path, pathTruthy,
      find_model_file, firstCand, fileExists, load_yaml_model, c6fs, c6doc,
      getStrD, Val.getD, Val.get?, Val.asList, lookupKey, aget, aset, ahas,
      pushIssue, detect_cycle, graphFuel, dcf, dcfLoop, dupCheck, dupScanModels,
      dupScanEnts, dupSeed, joinPath, emptyResolved,
      h1, h2, h3, h4, h5, h6]
  exact ⟨hiss, by rw [hiss]; rfl⟩

/-- Witness for C6 at the concrete names A and B. -/
theorem c6_circular_import_witness :
    ("A" : String) ≠ "B" ∧ ("A" : String) ≠ "" ∧ ("B" : String) ≠ "" ∧
    ((resolve_model (c6fs "A" "B") ["d", "A" ++ ".model.yaml"] []).res.issues =
      [circularIssue] ∧
    ((resolve_model (c6fs "A" "B") ["d", "A" ++ ".model.yaml"] []).res.issues.filter
      (fun i => i.code == "CIRCULAR_IMPORT")).length = 1) :=
  ⟨by decide, by decide, by decide,
   c6_circular_import_single "A" "B" (by decide) (by decide) (by decide)⟩

end DataLex
